import Mathlib

set_option maxHeartbeats 2000000
set_option maxRecDepth 8000

namespace SudokuAR

/-! Shallow embedding of the Sudoku-Solver-AR core.

Sources embedded here: src/src/Game.cpp, src/src/Solve.cpp (also
src/unnamed/part_000 and part_007), src/unnamed/part_006
(CachedPuzzleSolver.cpp), src/src/CachedPuzzleSolver.h's companion
Geometry implementation (MeanTheta, DifferenceTheta, IntersectLines),
src/src/ImageProcessing.cpp (NonMaximumSuppression hysteresis phase,
HoughTransform) and src/src/NeuralNetworkData.cpp
(InitializeWithTrainingData).

Machine integers are modelled as Nat (the program never exercises
overflow on the paths the claims touch, except the 16-bit Hough counter
saturation, which is explicit in the source and modelled explicitly).
C++ floats are modelled as real numbers. -/

/-! ### Game (src/src/Game.cpp)

Game.h itself is not in the tree; its constants are modelled from the
spec data model (section 3): WIDTH = HEIGHT = 9, BLOCK_WIDTH =
BLOCK_HEIGHT = 3, EMPTY_VALUE = 0, MAX_VALUE = 9. Per Game.cpp,
`Set` rejects out-of-range coordinates and `(value - 1) >= MAX_VALUE`;
with the usual integral promotion (see the spec's design note on the
degenerate `value == 0` case) the check accepts value = 0 and values
1..9 and rejects values ≥ 10. A Game is the row-major list of its 81
cells. -/

abbrev Game := List Nat

/-- Game::Get: bounds-checked read; out of range reads EMPTY_VALUE = 0. -/
def gameGet (g : Game) (x y : Nat) : Nat :=
  if 9 ≤ x ∨ 9 ≤ y then 0 else g.getD (y * 9 + x) 0

/-- Game::Set: writes `state[y*WIDTH+x] = value` unless the coordinates are
out of range or the value is ≥ 10 (values 0 and 1..9 are accepted). -/
def gameSet (g : Game) (x y v : Nat) : Game :=
  if 9 ≤ x ∨ 9 ≤ y ∨ 10 ≤ v then g else g.set (y * 9 + x) v

/-- A cleared board (Game::Clear fills with EMPTY_VALUE). -/
def emptyGame : Game := List.replicate 81 0

/-! ### Choices bitset (anonymous namespace of src/src/Solve.cpp)

The C++ `Choices` is an array of ten 0/1 flags; it is modelled as its
indicator function. -/

def Choices := Nat → Bool

/-- Choices::Choices(): all flags cleared. -/
def choicesEmpty : Choices := fun _ => false

/-- Choices::insert. -/
def choicesInsert (c : Choices) (v : Nat) : Choices := Function.update c v true

/-- Choices::contains. -/
def choicesContains (c : Choices) (v : Nat) : Bool := c v

/-- Choices::inverted: flips flags 1..9, leaves flag 0 cleared. -/
def choicesInverted (c : Choices) : Choices :=
  fun i => if 1 ≤ i ∧ i ≤ 9 then !c i else false

/-- Choices::intersection over flags 1..9. -/
def choicesIntersection (c d : Choices) : Choices :=
  fun i => if 1 ≤ i ∧ i ≤ 9 then c i && d i else false

/-- Choices::const_iterator walks the set indices 1..9 in ascending order. -/
def choicesMembers (c : Choices) : List Nat :=
  (List.range 10).filter (fun i => decide (1 ≤ i) && c i)

/-! ### Pure solver (src/src/Solve.cpp) -/

/-- AvailableHorizontalChoices. -/
def availableHorizontalChoices (g : Game) (y : Nat) : Choices :=
  choicesInverted
    ((List.range 9).foldl (fun c x => choicesInsert c (gameGet g x y)) choicesEmpty)

/-- AvailableVerticalChoices. -/
def availableVerticalChoices (g : Game) (x : Nat) : Choices :=
  choicesInverted
    ((List.range 9).foldl (fun c y => choicesInsert c (gameGet g x y)) choicesEmpty)

/-- AvailableSquareChoices. -/
def availableSquareChoices (g : Game) (x y : Nat) : Choices :=
  choicesInverted
    ((List.range 3).foldl
      (fun c j =>
        (List.range 3).foldl
          (fun c i => choicesInsert c (gameGet g (x / 3 * 3 + i) (y / 3 * 3 + j))) c)
      choicesEmpty)

/-- AvailableChoices: intersection of the row, column and block complements. -/
def availableChoices (g : Game) (x y : Nat) : Choices :=
  choicesIntersection
    (choicesIntersection (availableHorizontalChoices g y) (availableVerticalChoices g x))
    (availableSquareChoices g x y)

/-- NextOpenPosition: first empty cell strictly after row-major index
`y*9 + x`, as an (x, y) pair. -/
def nextOpenPosition (g : Game) (x y : Nat) : Option (Nat × Nat) :=
  (((List.range 81).drop (y * 9 + x + 1)).find?
      (fun i => gameGet g (i % 9) (i / 9) == 0)).map
    (fun i => (i % 9, i / 9))

/-- The row-major cell traversal order of Solvable's two nested loops. -/
def cellsRowMajor : List (Nat × Nat) :=
  (List.range 9).flatMap (fun y => (List.range 9).map (fun x => (x, y)))

/-- The cell-by-cell body of Solvable: skip empty cells; for a placed digit,
clear it, test membership in the available choices of its position, and
restore it. -/
def solvableAux (g : Game) : List (Nat × Nat) → Bool
  | [] => true
  | (x, y) :: rest =>
    let d := gameGet g x y
    if d = 0 then solvableAux g rest
    else
      let g' := gameSet g x y 0
      if choicesContains (availableChoices g' x y) d then
        solvableAux (gameSet g' x y d) rest
      else false

/-- Solvable (src/src/Solve.cpp). -/
def solvable (g : Game) : Bool := solvableAux g cellsRowMajor

/-- solvableAux with the restore folded away: the restoring
`Set(x, y, digit)` writes back the very digit just read, so the board
seen by the remaining cells is the original `g` (proved as
solvableAux_eq_cells below); this form evaluates without re-embedding
the board at every cell. -/
def solvableCells (g : Game) : List (Nat × Nat) → Bool
  | [] => true
  | (x, y) :: rest =>
    let d := gameGet g x y
    if d = 0 then solvableCells g rest
    else if choicesContains (availableChoices (gameSet g x y 0) x y) d then
      solvableCells g rest
    else false

/-- Move records of Solve's explicit DFS stack. -/
inductive MoveType
  | move
  | undo
deriving DecidableEq

structure Move where
  type : MoveType
  x : Nat
  y : Nat
  value : Nat
deriving DecidableEq

/-- Solve's PushMoves lambda: push an Undo marker, then push one Move per
available choice in ascending iterator order (so the largest choice ends on
top of the stack). -/
def pushMoves (g : Game) (x y : Nat) (s : List Move) : List Move :=
  (choicesMembers (availableChoices g x y)).foldl
    (fun s c => ⟨.move, x, y, c⟩ :: s) (⟨.undo, 0, 0, 0⟩ :: s)

/-- The DFS loop of Solve, fuelled. Each iteration pops one stack entry:
an Undo with no applied moves breaks out (returning false with the board
as is); an Undo otherwise reverts the most recent applied move; a Move is
applied, and either the board is full (return true) or the moves for the
next open position are pushed. An empty stack returns false. -/
def solveLoop : Nat → List Move → List Move → Game → Option (Bool × Game)
  | 0, _, _, _ => none
  | _ + 1, [], _, g => some (false, g)
  | fuel + 1, m :: stack, applied, g =>
    match m.type with
    | .undo =>
      match applied with
      | [] => some (false, g)
      | a :: applied' => solveLoop fuel stack applied' (gameSet g a.x a.y 0)
    | .move =>
      let g' := gameSet g m.x m.y m.value
      match nextOpenPosition g' m.x m.y with
      | none => some (true, g')
      | some (nx, ny) => solveLoop fuel (pushMoves g' nx ny stack) (m :: applied) g'

/-- Solve (src/src/Solve.cpp): find the first open position (the cell
(0, 0) itself, or the first open position after it; a full board returns
true immediately), push its moves and run the DFS loop. `none` means the
fuel bound was hit before the loop finished. -/
def solve (fuel : Nat) (g : Game) : Option (Bool × Game) :=
  if gameGet g 0 0 ≠ 0 then
    match nextOpenPosition g 0 0 with
    | none => some (true, g)
    | some (px, py) => solveLoop fuel (pushMoves g px py []) [] g
  else
    solveLoop fuel (pushMoves g 0 0 []) [] g

/-! ### Concrete boards -/

/-- The standard hard puzzle of the spec's end-to-end scenario 5. -/
def shortzPuzzle : List Nat :=
  [5,3,0,0,7,0,0,0,0,
   6,0,0,1,9,5,0,0,0,
   0,9,8,0,0,0,0,6,0,
   8,0,0,0,6,0,0,0,3,
   4,0,0,8,0,3,0,0,1,
   7,0,0,0,2,0,0,0,6,
   0,6,0,0,0,0,2,8,0,
   0,0,0,4,1,9,0,0,5,
   0,0,0,0,8,0,0,7,9]

/-- The canonical completion of the Shortz puzzle. -/
def shortzSolution : List Nat :=
  [5,3,4,6,7,8,9,1,2,
   6,7,2,1,9,5,3,4,8,
   1,9,8,3,4,2,5,6,7,
   8,5,9,7,6,1,4,2,3,
   4,2,6,8,5,3,7,9,1,
   7,1,3,9,2,4,8,5,6,
   9,6,1,5,3,7,2,8,4,
   2,8,7,4,1,9,6,3,5,
   3,4,5,2,8,6,1,7,9]

/-! ### CachedPuzzleSolver (src/unnamed/part_006, src/src/CachedPuzzleSolver.h)

The solution map is an association list with unique keys (std::map;
entries are never erased, so map iterators stay valid and are modelled by
their keys). The recently-used deque stores keys, oldest first. The
std::future is modelled by `none` (no task / consumed), `some none`
(in flight, not yet ready) and `some (some r)` (completed with Solve
result `r`; at that point the member `solvingGame` already holds the
board the background task left behind, since the task ran `Solve` on the
member itself). -/

/-- CachedPuzzleSolver::Solution. -/
structure CacheSolution where
  digits : List Nat
  recentlyUsedCount : Nat
deriving DecidableEq

structure SolverState where
  solvedPuzzles : List (List Nat × CacheSolution)
  recentlyUsedSolutions : List (List Nat)
  solvingDigits : List Nat
  solvingGame : Game
  future : Option (Option Bool)
deriving DecidableEq

/-- std::map::find on the association list. -/
def cacheFind (m : List (List Nat × CacheSolution)) (k : List Nat) :
    Option CacheSolution :=
  (m.find? (fun e => e.1 == k)).map (fun e => e.2)

/-- `solvedPuzzles[k] = v`: overwrite the entry if the key is present,
insert it otherwise. -/
def cacheUpsert (m : List (List Nat × CacheSolution)) (k : List Nat)
    (v : CacheSolution) : List (List Nat × CacheSolution) :=
  if m.any (fun e => e.1 == k) then
    m.map (fun e => if e.1 == k then (k, v) else e)
  else m ++ [(k, v)]

/-- Increment the recently-used counter of the entry at key `k`. -/
def cacheBumpUp (m : List (List Nat × CacheSolution)) (k : List Nat) :
    List (List Nat × CacheSolution) :=
  m.map (fun e => if e.1 == k then (e.1, ⟨e.2.digits, e.2.recentlyUsedCount + 1⟩) else e)

/-- Decrement the recently-used counter of the entry at key `k` (the
C++ counter is unsigned and every deque element is backed by one
increment, so the decrement never underflows; Nat subtraction). -/
def cacheBumpDown (m : List (List Nat × CacheSolution)) (k : List Nat) :
    List (List Nat × CacheSolution) :=
  m.map (fun e => if e.1 == k then (e.1, ⟨e.2.digits, e.2.recentlyUsedCount - 1⟩) else e)

/-- UpdateRecentlyUsedSolutions::PopSolution: decrement the oldest
recently-used entry's counter and drop it from the deque. -/
def ruPop (s : SolverState) : SolverState :=
  match s.recentlyUsedSolutions with
  | [] => s
  | f :: rest =>
    { s with solvedPuzzles := cacheBumpDown s.solvedPuzzles f,
             recentlyUsedSolutions := rest }

/-- UpdateRecentlyUsedSolutions::AddSolution on an exact cache hit:
increment the entry's counter, push its key to the back of the deque,
and pop the oldest entry when the deque exceeds ten elements (this
disarms the destructor's pop). -/
def ruAdd (s : SolverState) (k : List Nat) : SolverState :=
  let cache := cacheBumpUp s.solvedPuzzles k
  let dq := s.recentlyUsedSolutions ++ [k]
  if 10 < dq.length then
    match dq with
    | [] => { s with solvedPuzzles := cache, recentlyUsedSolutions := [] }
    | f :: rest =>
      { s with solvedPuzzles := cacheBumpDown cache f, recentlyUsedSolutions := rest }
  else { s with solvedPuzzles := cache, recentlyUsedSolutions := dq }

/-- DigitsToGame. -/
def digitsToGame (digits : List Nat) : Game :=
  (List.range 9).foldl
    (fun g y =>
      (List.range 9).foldl (fun g x => gameSet g x y (digits.getD (y * 9 + x) 0)) g)
    emptyGame

/-- GameToDigits. -/
def gameToDigits (g : Game) : List Nat :=
  (List.range 9).flatMap (fun y => (List.range 9).map (fun x => gameGet g x y))

/-- The first step of CachedPuzzleSolver::Solve: poll the in-flight
future; if it is ready, consume it, and on success cache the solved
board under the digits it was launched with (count 0). -/
def pollState (s : SolverState) : SolverState :=
  match s.future with
  | some (some true) =>
    { s with
      solvedPuzzles :=
        cacheUpsert s.solvedPuzzles s.solvingDigits ⟨gameToDigits s.solvingGame, 0⟩,
      future := none }
  | some (some false) => { s with future := none }
  | _ => s

/-- CachedPuzzleSolver::GetMostLikelySolution: std::max_element over the
recently-used deque by recentlyUsedCount (the first maximum wins), as the
key of the chosen entry; none when the deque is empty. -/
def getMostLikelyKey (s : SolverState) : Option (List Nat) :=
  match s.recentlyUsedSolutions with
  | [] => none
  | k :: rest =>
    some (rest.foldl
      (fun best k' =>
        if ((cacheFind s.solvedPuzzles best).map (fun e => e.recentlyUsedCount)).getD 0 <
           ((cacheFind s.solvedPuzzles k').map (fun e => e.recentlyUsedCount)).getD 0
        then k' else best)
      k)

/-- The solution digits stored for a cache key. -/
def cachedDigitsAt (s : SolverState) (k : List Nat) : List Nat :=
  ((cacheFind s.solvedPuzzles k).map (fun e => e.digits)).getD []

/-- Number of positions where the query differs from a cache key. -/
def diffCount (digits k : List Nat) : Nat :=
  (List.range digits.length).countP (fun i => digits.getD i 0 ≠ k.getD i 0)

/-- The tail of CachedPuzzleSolver::Solve: if a task is already in
flight, drop the request; otherwise snapshot the digits and the Game and
launch the background solve. Either way return false, and the
destructor's pop runs. -/
def launchOrDrop (s : SolverState) (digits : List Nat) (game : Game) :
    Bool × Option (List Nat) × SolverState :=
  if s.future.isSome then (false, none, ruPop s)
  else
    (false, none,
     ruPop { s with solvingDigits := digits, solvingGame := game, future := some none })

/-- CachedPuzzleSolver::Solve. Returns (return value, the out-parameter
`solution` when it was written, the state at return). The
UpdateRecentlyUsedSolutions destructor pops the oldest recently-used
entry on every path except the exact-cache-hit path (where AddSolution
disarms it). -/
def cachedSolve (s₀ : SolverState) (digits : List Nat) :
    Bool × Option (List Nat) × SolverState :=
  let s := pollState s₀
  if digits.length ≠ 81 then (false, none, ruPop s)
  else if digits.any (fun d => 9 < d) then (false, none, ruPop s)
  else
    let game := digitsToGame digits
    if solvable game = false then (false, none, ruPop s)
    else if digits.countP (fun d => 0 < d) < 21 then (false, none, ruPop s)
    else
      match cacheFind s.solvedPuzzles digits with
      | some entry => (true, some entry.digits, ruAdd s digits)
      | none =>
        match getMostLikelyKey s with
        | some k =>
          if diffCount digits k < 4 then (true, some (cachedDigitsAt s k), ruPop s)
          else launchOrDrop s digits game
        | none => launchOrDrop s digits game

/-! ### NeuralNetworkData::InitializeWithTrainingData
(src/src/NeuralNetworkData.cpp)

The neuron weights are drawn from std::random_device host entropy and
are not modelled; what the claim concerns is the layer structure, so
layers are modelled by their neuron counts (the randomisation loop never
adds or removes neurons). PrepareVector appends the 1.0 term and pads
to a multiple of 8, which only the resulting length reflects. -/

/-- Length of a vector after PrepareVector: one slot for the 1.0 term,
then zero padding until the length is a multiple of 8. -/
def prepareVectorLen (n : Nat) : Nat :=
  n + 1 + (8 - (n + 1) % 8) % 8

structure NeuralNetworkData where
  inputSize : Nat
  outputChoices : List Nat
  layers : List Nat
deriving DecidableEq

/-- TrainingDataOutputChoices: the distinct expected labels (std::set
iteration yields them sorted; only first occurrences are kept here and
the count is what matters). -/
def trainingDataOutputChoices (td : List (List Nat × Nat)) : List Nat :=
  (td.map (fun d => d.2)).dedup

/-- NeuralNetworkData::InitializeWithTrainingData, faithfully ordered:
Clear() zeroes the member inputSize; the local originalInputSize is
computed but never used; the hidden layer is sized from the member
inputSize (still 0 at that point), the output layer from the distinct
labels; only at the very end is the member inputSize assigned the padded
training-input length. -/
def initializeWithTrainingData (td : List (List Nat × Nat)) : NeuralNetworkData :=
  let inputSize := 0
  let originalInputSize := ((td.headD ([], 0)).1).length
  let _ := originalInputSize
  let preparedLen := prepareVectorLen ((td.headD ([], 0)).1).length
  let outputChoices := trainingDataOutputChoices td
  let layers := [inputSize / 2, outputChoices.length]
  { inputSize := preparedLen, outputChoices := outputChoices, layers := layers }

/-! ### Hysteresis linking phase of NonMaximumSuppression
(src/src/ImageProcessing.cpp, lines 172-216)

Pixel state after the thresholding loop: channel 0 is 255 on strong
pixels, channel 1 holds the magnitude of weak pixels, channel 2 is the
visited flag (all zero initially). The C++ loop is
`bool found = false; while(!found) { found = false; <full scan> }`: the
loop exits right after the first scan that visited at least one strong
pixel, and a scan that visits none leaves the state unchanged (proved
below), so the loop then repeats identical scans forever. `hysteresis`
returns the state after the single productive scan, or `none` for that
divergence. -/

structure EdgeState where
  ch0 : Nat × Nat → Nat
  ch1 : Nat × Nat → Nat
  ch2 : Nat × Nat → Nat

/-- The TryWeakEdge lambda: promote a weak pixel to strong. -/
def tryWeakEdge (st : EdgeState) (p : Nat × Nat) : EdgeState :=
  if st.ch1 p = 0 then st
  else { st with ch0 := Function.update st.ch0 p 255,
                 ch1 := Function.update st.ch1 p 0 }

/-- The eight neighbours, in the order the scan tries them. -/
def neighborList (x y : Nat) : List (Nat × Nat) :=
  [(x - 1, y - 1), (x, y - 1), (x + 1, y - 1),
   (x - 1, y), (x + 1, y),
   (x - 1, y + 1), (x, y + 1), (x + 1, y + 1)]

/-- One scan position: skip pixels that are not strong or were already
visited; otherwise mark visited, record that the scan found something,
and try to promote the eight neighbours. -/
def hystStep (s : EdgeState × Bool) (p : Nat × Nat) : EdgeState × Bool :=
  if s.1.ch0 p = 0 ∨ s.1.ch2 p = 255 then s
  else
    ((neighborList p.1 p.2).foldl tryWeakEdge
       { s.1 with ch2 := Function.update s.1.ch2 p 255 },
     true)

/-- Interior scan positions, row-major: y in [1, h-1), x in [1, w-1). -/
def interiorCells (w h : Nat) : List (Nat × Nat) :=
  (List.range' 1 (h - 1 - 1)).flatMap
    (fun y => (List.range' 1 (w - 1 - 1)).map (fun x => (x, y)))

/-- One full scan of the hysteresis loop. -/
def hysteresisPass (w h : Nat) (st : EdgeState) : EdgeState × Bool :=
  (interiorCells w h).foldl hystStep (st, false)

/-- The whole `while(!found)` loop: one productive scan terminates it;
an unproductive scan changes nothing, so the loop never terminates and
`none` models that divergence. -/
def hysteresis (w h : Nat) (st : EdgeState) : Option EdgeState :=
  let r := hysteresisPass w h st
  if r.2 then some r.1 else none

/-- The concrete pixel state used to exercise the hysteresis scan:
a strong seed at (3, 3) and retained weak pixels at (2, 2) and (1, 1)
inside a 5x5 image. -/
def hystExample : EdgeState where
  ch0 := fun p => if p = (3, 3) then 255 else 0
  ch1 := fun p => if p = (2, 2) ∨ p = (1, 1) then 100 else 0
  ch2 := fun _ => 0

/-! ### Geometry (Geometry implementation unit: MeanTheta,
DifferenceTheta, IntersectLines)

C float arithmetic is modelled over the reals; fmodf is modelled by the
exact `x - y * trunc (x / y)` with truncation toward zero. -/

/-- Truncation toward zero, as C's float-to-float fmod uses. -/
noncomputable def rtrunc (t : ℝ) : ℝ :=
  if 0 ≤ t then (⌊t⌋ : ℝ) else (⌈t⌉ : ℝ)

/-- C fmodf. -/
noncomputable def fmodR (x y : ℝ) : ℝ := x - y * rtrunc (x / y)

/-- struct Line of Geometry.h. -/
structure GLine where
  theta : ℝ
  rho : ℝ

/-- MeanTheta: sum, min (seeded with pi/2) and max (seeded with 0) of the
theta values; when the set straddles the wrap (min < pi/2 and
max ≥ 4*pi/3) re-sum with every theta shifted by 2*pi - max + 1 and
wrapped into [0, 2*pi); finally divide by the count, unshift, and wrap. -/
noncomputable def meanTheta (lines : List GLine) : ℝ :=
  let sumTheta := lines.foldl (fun s l => s + l.theta) 0
  let minTheta := lines.foldl (fun m l => min m l.theta) (Real.pi / 2)
  let maxTheta := lines.foldl (fun m l => max m l.theta) 0
  let wrap := minTheta < Real.pi / 2 ∧ 4 * Real.pi / 3 ≤ maxTheta
  let shiftTheta := if wrap then 2 * Real.pi - maxTheta + 1 else 0
  let sumTheta' :=
    if wrap then lines.foldl (fun s l => s + fmodR (l.theta + shiftTheta) (2 * Real.pi)) 0
    else sumTheta
  fmodR (sumTheta' / lines.length - shiftTheta) (2 * Real.pi)

/-- IntersectLines: equal thetas are reported as parallel (no
intersection point); otherwise the closed-form Hesse intersection is
returned, dividing by sin(theta2 - theta1). -/
noncomputable def intersectLines (l₁ l₂ : GLine) : Option (ℝ × ℝ) :=
  if l₁.theta = l₂.theta then none
  else
    let sinDiff := Real.sin (l₂.theta - l₁.theta)
    some ((l₁.rho * Real.sin l₂.theta - l₂.rho * Real.sin l₁.theta) / sinDiff,
          (l₁.rho * Real.cos l₂.theta - l₂.rho * Real.cos l₁.theta) / (-sinDiff))

/-! ### HoughTransform (src/src/ImageProcessing.cpp, lines 569-625)

The accumulator is a grid of 16-bit counters, addressed (row, column)
and modelled as a function to Nat. For an accumulator of width W and
height H over an input of width w and height h, an edge pixel (x, y)
votes in every column z for the row computed from
rf = (x*cos(theta_z) + y*sin(theta_z)) * (H/2 / diag) + H/2 with
diag = hypot(w, h), truncated to unsigned and clamped to [0, H-1].
Increments saturate at 0xFFFF. -/

/-- The precomputed column angle: theta_z = z * (pi / W). -/
noncomputable def houghTheta (W z : Nat) : ℝ := z * (Real.pi / W)

/-- The real-valued row computation of the source: rf is scaled by
rTerm1Multiplier = (H/2) / maxR and offset by rMultiplier = H/2. -/
noncomputable def houghRowF (w h H W x y z : Nat) : ℝ :=
  let maxR := Real.sqrt ((w : ℝ) ^ 2 + (h : ℝ) ^ 2)
  let rMultiplier := (H : ℝ) / 2
  ((x : ℝ) * Real.cos (houghTheta W z) + (y : ℝ) * Real.sin (houghTheta W z)) *
      (rMultiplier / maxR) + rMultiplier

/-- The accumulator row hit by pixel (x, y) in column z:
static_cast<unsigned int> truncation of rf (rf is never negative on
in-range pixels), clamped to [0, H-1]. -/
noncomputable def houghRow (w h H W x y z : Nat) : Nat :=
  min (Int.toNat ⌊houghRowF w h H W x y z⌋) (H - 1)

/-- The row the claim describes: rho_f mapped onto a y-axis discretising
[0, diag], i.e. rho_f / diag * H, truncated and clamped. -/
noncomputable def houghRowClaim (w h H W x y z : Nat) : Nat :=
  let maxR := Real.sqrt ((w : ℝ) ^ 2 + (h : ℝ) ^ 2)
  min (Int.toNat ⌊((x : ℝ) * Real.cos (houghTheta W z) +
        (y : ℝ) * Real.sin (houghTheta W z)) / maxR * (H : ℝ)⌋) (H - 1)

/-- One saturating 16-bit counter increment. -/
def houghInc (v : Nat) : Nat := if v < 65535 then v + 1 else v

/-- The edge pixels HoughTransform visits: channel 0 non-zero, outside a
10-pixel border, row-major. -/
def houghPixels (img : Nat → Nat → Bool) (w h : Nat) : List (Nat × Nat) :=
  ((List.range' 10 (h - 10 - 10)).flatMap
    (fun y => (List.range' 10 (w - 10 - 10)).map (fun x => (x, y)))).filter
    (fun p => img p.1 p.2)

/-- Process one vote: saturating increment of the accumulator cell. -/
noncomputable def houghVote (w h H W : Nat) (acc : Nat × Nat → Nat)
    (pz : (Nat × Nat) × Nat) : Nat × Nat → Nat :=
  Function.update acc (houghRow w h H W pz.1.1 pz.1.2 pz.2, pz.2)
    (houghInc (acc (houghRow w h H W pz.1.1 pz.1.2 pz.2, pz.2)))

/-- All (pixel, column) vote pairs in processing order. -/
def houghVoteList (img : Nat → Nat → Bool) (w h W : Nat) :
    List ((Nat × Nat) × Nat) :=
  (houghPixels img w h).flatMap (fun p => (List.range W).map (fun z => (p, z)))

/-- HoughTransform: the accumulator (zero-filled at entry) after all edge
pixels have voted in all columns. -/
noncomputable def houghTransform (img : Nat → Nat → Bool) (w h H W : Nat) :
    Nat × Nat → Nat :=
  (houghVoteList img w h W).foldl (houghVote w h H W) (fun _ => 0)

/-! ### Concrete cached-solver states -/

/-- A cache key differing from the Shortz puzzle in exactly one
position (cell 0 reads 4 instead of 5). -/
def nearKey : List Nat := 4 :: shortzPuzzle.tail

/-- A solver state holding one cached solution under `nearKey`, which is
also the one recently-used entry; no task is in flight. -/
def nearState : SolverState where
  solvedPuzzles := [(nearKey, ⟨shortzSolution, 1⟩)]
  recentlyUsedSolutions := [nearKey]
  solvingDigits := []
  solvingGame := emptyGame
  future := none

/-- The Shortz puzzle with the ten clues of its first three rows
blanked, leaving 20 clues (still free of duplicates). -/
def puzzle20 : List Nat :=
  [0,0,0,0,0,0,0,0,0,
   0,0,0,0,0,0,0,0,0,
   0,0,0,0,0,0,0,0,0,
   8,0,0,0,6,0,0,0,3,
   4,0,0,8,0,3,0,0,1,
   7,0,0,0,2,0,0,0,6,
   0,6,0,0,0,0,2,8,0,
   0,0,0,4,1,9,0,0,5,
   0,0,0,0,8,0,0,7,9]

/-- A solver state with one cached, recently-used solution and no task
in flight, used to show the few-clues path still mutates the cache. -/
def ruState : SolverState where
  solvedPuzzles := [(shortzSolution, ⟨shortzSolution, 1⟩)]
  recentlyUsedSolutions := [shortzSolution]
  solvingDigits := []
  solvingGame := emptyGame
  future := none

/-- The all-empty solver state. -/
def freshState : SolverState where
  solvedPuzzles := []
  recentlyUsedSolutions := []
  solvingDigits := []
  solvingGame := emptyGame
  future := none

/-- The claim's predicate for C4, written from the spec's words: no
row, no column and no 3x3 block of the board contains the same non-zero
digit more than once. -/
def NoDuplicates (g : Game) : Prop :=
  ∀ x₁ y₁ x₂ y₂ : Nat, x₁ < 9 → y₁ < 9 → x₂ < 9 → y₂ < 9 →
    (x₁, y₁) ≠ (x₂, y₂) →
    (y₁ = y₂ ∨ x₁ = x₂ ∨ (x₁ / 3 = x₂ / 3 ∧ y₁ / 3 = y₂ / 3)) →
    gameGet g x₁ y₁ ≠ 0 → gameGet g x₁ y₁ ≠ gameGet g x₂ y₂

/-- The Shortz solution with cell (0, 0) blanked, for exercising the
solver frame property on a one-cell search. -/
def nearlyFull : List Nat := 0 :: shortzSolution.tail

/-! ### Solve-loop invariants (C10)

`applied` lists the applied moves, most recent first; the board at any
point of the DFS is the original board with the applied moves written
into it. The stack always consists of batches of candidate moves, one
batch per applied move plus one for the current open position, each
terminated by an Undo marker; every candidate in a batch is a 1..9 digit
at an in-range position that is empty on the board of the batch's
level. -/

/-- The board after writing the applied moves (oldest first). -/
def applyMoves (g : Game) (applied : List Move) : Game :=
  applied.foldr (fun m g => gameSet g m.x m.y m.value) g

/-- A well-formed candidate move of a batch at level `applied`. -/
def GoodBatchMove (g : Game) (applied : List Move) (m : Move) : Prop :=
  m.type = .move ∧ m.x < 9 ∧ m.y < 9 ∧ 1 ≤ m.value ∧ m.value ≤ 9 ∧
    gameGet (applyMoves g applied) m.x m.y = 0

/-- The applied moves are digit placements on cells that were empty at
the time of placement. -/
inductive GoodApplied (g : Game) : List Move → Prop
  | nil : GoodApplied g []
  | cons (m : Move) (rest : List Move) (hr : GoodApplied g rest)
      (hx : m.x < 9) (hy : m.y < 9) (h1 : 1 ≤ m.value) (h9 : m.value ≤ 9)
      (he : gameGet (applyMoves g rest) m.x m.y = 0) : GoodApplied g (m :: rest)

/-- The mutual shape of the DFS stack and the applied-move list. -/
inductive GoodStack (g : Game) : List Move → List Move → Prop
  | base (ms : List Move) (u : Move) (hu : u.type = .undo)
      (hms : ∀ m ∈ ms, GoodBatchMove g [] m) :
      GoodStack g [] (ms ++ [u])
  | step (ms : List Move) (u : Move) (a : Move) (applied stack : List Move)
      (hs : GoodStack g applied stack) (hu : u.type = .undo)
      (ha : GoodBatchMove g applied a)
      (hms : ∀ m ∈ ms, GoodBatchMove g (a :: applied) m) :
      GoodStack g (a :: applied) (ms ++ u :: stack)

/-! ### Packed-board evaluation of the solver

`solve` above mirrors the C++ cell for cell, but a board is an
81-element list, and the kernel pays for a full list traversal at every
`Get`. For the concrete solver runs below we evaluate instead over a
board packed into a single natural number, four bits per cell, and
prove once and for all that the packed solver simulates `solve` on
well-formed boards. -/

/-- Pack a board into one natural number, cell `i` in bits `4i..4i+3`. -/
def packGame : Game → Nat
  | [] => 0
  | d :: rest => d + 16 * packGame rest

/-- Cell `i` of a packed board. -/
def pdigit (n i : Nat) : Nat := n / 16 ^ i % 16

/-- Write `v` into cell `i` of a packed board. -/
def pput (n i v : Nat) : Nat :=
  n % 16 ^ i + v * 16 ^ i + n / 16 ^ (i + 1) * 16 ^ (i + 1)

/-- Unpack the 81 cells of a packed board. -/
def unpackGame (n : Nat) : Game := (List.range 81).map (fun i => pdigit n i)

/-- Game::Get over a packed board. -/
def pGameGet (n x y : Nat) : Nat :=
  if 9 ≤ x ∨ 9 ≤ y then 0 else pdigit n (y * 9 + x)

/-- Game::Set over a packed board. -/
def pGameSet (n x y v : Nat) : Nat :=
  if 9 ≤ x ∨ 9 ≤ y ∨ 10 ≤ v then n else pput n (y * 9 + x) v

/-- AvailableHorizontalChoices over a packed board. -/
def pAvailableHorizontalChoices (n y : Nat) : Choices :=
  choicesInverted
    ((List.range 9).foldl (fun c x => choicesInsert c (pGameGet n x y)) choicesEmpty)

/-- AvailableVerticalChoices over a packed board. -/
def pAvailableVerticalChoices (n x : Nat) : Choices :=
  choicesInverted
    ((List.range 9).foldl (fun c y => choicesInsert c (pGameGet n x y)) choicesEmpty)

/-- AvailableSquareChoices over a packed board. -/
def pAvailableSquareChoices (n x y : Nat) : Choices :=
  choicesInverted
    ((List.range 3).foldl
      (fun c j =>
        (List.range 3).foldl
          (fun c i => choicesInsert c (pGameGet n (x / 3 * 3 + i) (y / 3 * 3 + j))) c)
      choicesEmpty)

/-- AvailableChoices over a packed board. -/
def pAvailableChoices (n x y : Nat) : Choices :=
  choicesIntersection
    (choicesIntersection (pAvailableHorizontalChoices n y) (pAvailableVerticalChoices n x))
    (pAvailableSquareChoices n x y)

/-- NextOpenPosition over a packed board. -/
def pNextOpenPosition (n x y : Nat) : Option (Nat × Nat) :=
  (((List.range 81).drop (y * 9 + x + 1)).find?
      (fun i => pGameGet n (i % 9) (i / 9) == 0)).map
    (fun i => (i % 9, i / 9))

/-- PushMoves over a packed board. -/
def pPushMoves (n x y : Nat) (s : List Move) : List Move :=
  (choicesMembers (pAvailableChoices n x y)).foldl
    (fun s c => ⟨.move, x, y, c⟩ :: s) (⟨.undo, 0, 0, 0⟩ :: s)

/-- The DFS loop of Solve over a packed board. -/
def pSolveLoop : Nat → List Move → List Move → Nat → Option (Bool × Nat)
  | 0, _, _, _ => none
  | _ + 1, [], _, n => some (false, n)
  | fuel + 1, m :: stack, applied, n =>
    match m.type with
    | .undo =>
      match applied with
      | [] => some (false, n)
      | a :: applied' => pSolveLoop fuel stack applied' (pGameSet n a.x a.y 0)
    | .move =>
      let n' := pGameSet n m.x m.y m.value
      match pNextOpenPosition n' m.x m.y with
      | none => some (true, n')
      | some (nx, ny) => pSolveLoop fuel (pPushMoves n' nx ny stack) (m :: applied) n'

/-- Solve over a packed board. -/
def pSolve (fuel n : Nat) : Option (Bool × Nat) :=
  if pGameGet n 0 0 ≠ 0 then
    match pNextOpenPosition n 0 0 with
    | none => some (true, n)
    | some (px, py) => pSolveLoop fuel (pPushMoves n px py []) [] n
  else
    pSolveLoop fuel (pPushMoves n 0 0 []) [] n

/-- Boards reachable in the solver: 81 cells, each fitting in four bits. -/
def ValidGame (g : Game) : Prop := g.length = 81 ∧ ∀ d ∈ g, d < 16

instance : DecidablePred ValidGame := fun g =>
  inferInstanceAs (Decidable (g.length = 81 ∧ ∀ d ∈ g, d < 16))

/-! ## Theorems -/

/-! ### Packed-board simulation lemmas -/

theorem cons_div_16 (d R : Nat) (hd : d < 16) : (d + 16 * R) / 16 = R := by
  rw [Nat.add_mul_div_left d R (by norm_num), Nat.div_eq_of_lt hd]
  omega

theorem packGame_digit (g : Game) (h : ∀ d ∈ g, d < 16) (i : Nat) :
    pdigit (packGame g) i = g.getD i 0 := by
  induction g generalizing i with
  | nil => simp [packGame, pdigit]
  | cons d rest ih =>
    have hd : d < 16 := h d (List.mem_cons_self d rest)
    have h' : ∀ e ∈ rest, e < 16 := fun e he => h e (List.mem_cons_of_mem d he)
    cases i with
    | zero =>
      simp only [pdigit, packGame, pow_zero, Nat.div_one, List.getD_cons_zero]
      rw [Nat.add_mul_mod_self_left, Nat.mod_eq_of_lt hd]
    | succ i =>
      simp only [pdigit, packGame, List.getD_cons_succ]
      rw [pow_succ, mul_comm (16 ^ i) 16, ← Nat.div_div_eq_div_mul,
        cons_div_16 d _ hd]
      exact ih h' i

theorem packGame_set (g : Game) (h : ∀ d ∈ g, d < 16) (i v : Nat)
    (hi : i < g.length) : packGame (g.set i v) = pput (packGame g) i v := by
  induction g generalizing i with
  | nil => simp at hi
  | cons d rest ih =>
    have hd : d < 16 := h d (List.mem_cons_self d rest)
    have h' : ∀ e ∈ rest, e < 16 := fun e he => h e (List.mem_cons_of_mem d he)
    cases i with
    | zero =>
      have h16 : (d + 16 * packGame rest) / 16 ^ (0 + 1) = packGame rest := by
        rw [pow_one, cons_div_16 d _ hd]
      simp only [List.set_cons_zero, packGame, pput, pow_zero, Nat.mod_one, h16]
      ring
    | succ i =>
      have hi' : i < rest.length := by simpa using hi
      have hdiv2 : (d + 16 * packGame rest) / 16 ^ (i + 1 + 1) =
          packGame rest / 16 ^ (i + 1) := by
        rw [pow_succ, mul_comm (16 ^ (i + 1)) 16, ← Nat.div_div_eq_div_mul,
          cons_div_16 d _ hd]
      have hmod : (d + 16 * packGame rest) % 16 ^ (i + 1) =
          d + 16 * (packGame rest % 16 ^ i) := by
        have hq : packGame rest % 16 ^ i = packGame rest % 16 ^ i := rfl
        have hsplit : packGame rest =
            16 ^ i * (packGame rest / 16 ^ i) + packGame rest % 16 ^ i :=
          (Nat.div_add_mod _ _).symm
        have hrlt : packGame rest % 16 ^ i < 16 ^ i :=
          Nat.mod_lt _ (pow_pos (by norm_num) i)
        have hps : (16 : Nat) ^ (i + 1) = 16 * 16 ^ i := by
          rw [pow_succ]; ring
        have h1 : d + 16 * packGame rest =
            d + 16 * (packGame rest % 16 ^ i) +
              (packGame rest / 16 ^ i) * 16 ^ (i + 1) := by
          conv_lhs => rw [hsplit]
          rw [hps]; ring
        rw [h1, Nat.add_mul_mod_self_right]
        exact Nat.mod_eq_of_lt (by omega)
      simp only [List.set_cons_succ, packGame, ih h' i hi', pput, hmod, hdiv2]
      have hps1 : (16 : Nat) ^ (i + 1) = 16 * 16 ^ i := by rw [pow_succ]; ring
      have hps2 : (16 : Nat) ^ (i + 1 + 1) = 16 * 16 ^ (i + 1) := by
        rw [pow_succ (16 : Nat) (i + 1)]; ring
      rw [hps1, hps2]
      ring

theorem unpack_pack {g : Game} (hv : ValidGame g) : unpackGame (packGame g) = g := by
  obtain ⟨hlen, hd⟩ := hv
  apply List.ext_getElem
  · simp [unpackGame, hlen]
  · intro i h1 h2
    simp only [unpackGame, List.getElem_map, List.getElem_range]
    rw [packGame_digit g hd i, List.getD_eq_getElem g 0 h2]

theorem pGameGet_pack {g : Game} (hv : ValidGame g) (x y : Nat) :
    pGameGet (packGame g) x y = gameGet g x y := by
  unfold pGameGet gameGet
  split
  · rfl
  · exact packGame_digit g hv.2 (y * 9 + x)

theorem valid_gameSet {g : Game} (hv : ValidGame g) (x y v : Nat) :
    ValidGame (gameSet g x y v) := by
  unfold gameSet
  split
  · exact hv
  · constructor
    · simpa using hv.1
    · intro d hdm
      rcases List.mem_or_eq_of_mem_set hdm with hmem | rfl
      · exact hv.2 d hmem
      · rename_i hcond
        omega

theorem pGameSet_pack {g : Game} (hv : ValidGame g) (x y v : Nat) :
    pGameSet (packGame g) x y v = packGame (gameSet g x y v) := by
  unfold pGameSet gameSet
  split
  · rfl
  · rename_i hcond
    have hi : y * 9 + x < g.length := by
      rw [hv.1]; omega
    exact (packGame_set g hv.2 (y * 9 + x) v hi).symm

theorem find?_congr_pt {α : Type} (l : List α) (p q : α → Bool)
    (h : ∀ a, p a = q a) : l.find? p = l.find? q := by
  induction l with
  | nil => rfl
  | cons a t ih =>
    simp only [List.find?_cons, h a]
    split <;> simp [ih]

theorem pNextOpenPosition_pack {g : Game} (hv : ValidGame g) (x y : Nat) :
    pNextOpenPosition (packGame g) x y = nextOpenPosition g x y := by
  unfold pNextOpenPosition nextOpenPosition
  have hpred : ∀ i : Nat,
      (pGameGet (packGame g) (i % 9) (i / 9) == 0) =
        (gameGet g (i % 9) (i / 9) == 0) := by
    intro i
    rw [pGameGet_pack hv]
  rw [find?_congr_pt _ _ _ hpred]

theorem pAvailableChoices_pack {g : Game} (hv : ValidGame g) (x y : Nat) :
    pAvailableChoices (packGame g) x y = availableChoices g x y := by
  unfold pAvailableChoices availableChoices
    pAvailableHorizontalChoices availableHorizontalChoices
    pAvailableVerticalChoices availableVerticalChoices
    pAvailableSquareChoices availableSquareChoices
  simp only [pGameGet_pack hv]

theorem pPushMoves_pack {g : Game} (hv : ValidGame g) (x y : Nat) (s : List Move) :
    pPushMoves (packGame g) x y s = pushMoves g x y s := by
  unfold pPushMoves pushMoves
  rw [pAvailableChoices_pack hv]

theorem pSolveLoop_pack (fuel : Nat) : ∀ (stack applied : List Move) (g : Game),
    ValidGame g →
    solveLoop fuel stack applied g =
      (pSolveLoop fuel stack applied (packGame g)).map
        (fun r => (r.1, unpackGame r.2)) := by
  induction fuel with
  | zero => intro stack applied g _; rfl
  | succ fuel ih =>
    intro stack applied g hv
    rcases stack with _ | ⟨⟨mt, mx, my, mv⟩, stack⟩
    · simp [solveLoop, pSolveLoop, unpack_pack hv]
    cases mt with
    | undo =>
      rcases applied with _ | ⟨a, applied'⟩
      · simp [solveLoop, pSolveLoop, unpack_pack hv]
      · simp only [solveLoop, pSolveLoop, pGameSet_pack hv]
        exact ih stack applied' _ (valid_gameSet hv a.x a.y 0)
    | move =>
      have hv' : ValidGame (gameSet g mx my mv) := valid_gameSet hv mx my mv
      cases hnop : nextOpenPosition (gameSet g mx my mv) mx my with
      | none =>
        simp [solveLoop, pSolveLoop, pGameSet_pack hv,
          pNextOpenPosition_pack hv', hnop, unpack_pack hv']
      | some p =>
        obtain ⟨nx, ny⟩ := p
        simp only [solveLoop, pSolveLoop, pGameSet_pack hv,
          pNextOpenPosition_pack hv', hnop, pPushMoves_pack hv']
        exact ih _ _ _ hv'

theorem pSolve_pack {g : Game} (hv : ValidGame g) (fuel : Nat) :
    solve fuel g =
      (pSolve fuel (packGame g)).map (fun r => (r.1, unpackGame r.2)) := by
  by_cases h00 : gameGet g 0 0 = 0
  · simp only [solve, pSolve, pGameGet_pack hv, pPushMoves_pack hv, h00,
      ne_eq, not_true_eq_false, if_false]
    exact pSolveLoop_pack fuel _ _ _ hv
  · cases hnop : nextOpenPosition g 0 0 with
    | none =>
      simp [solve, pSolve, pGameGet_pack hv, pNextOpenPosition_pack hv, h00,
        hnop, unpack_pack hv]
    | some p =>
      obtain ⟨px, py⟩ := p
      simp only [solve, pSolve, pGameGet_pack hv, pNextOpenPosition_pack hv,
        h00, hnop, ne_eq, not_false_eq_true, if_true, pPushMoves_pack hv]
      exact pSolveLoop_pack fuel _ _ _ hv


/-- C3: running the embedded Solve on the Game built from the standard
hard 81-digit puzzle returns true and leaves the board equal to the
canonical Shortz solution, with no cell still zero. (digitsToGame of the
81-digit vector; 2000 fuel is ample: the run needs 897 loop
iterations.) -/
theorem solve_shortz_canonical :
    solve 2000 (digitsToGame shortzPuzzle) = some (true, shortzSolution) ∧
      shortzSolution.all (fun d => d ≠ 0) = true := by
  constructor
  · have hv : ValidGame (digitsToGame shortzPuzzle) := by decide
    rw [pSolve_pack hv]
    decide
  · decide

/-- C2 (code slip): on the training set [([1,2,3,4], 7)] the network is
initialised with layer neuron counts [0, 1] — the hidden layer is empty
because the member inputSize is still 0 (Clear() reset it and it is
reassigned only at the end of the function), not ⌊4/2⌋ = 2 as the
claim states; the output layer correctly has one neuron for the one
distinct label. -/
theorem nn_init_hidden_layer_empty :
    (initializeWithTrainingData [([1, 2, 3, 4], 7)]).layers = [0, 1] ∧
      (initializeWithTrainingData [([1, 2, 3, 4], 7)]).outputChoices = [7] := by
  decide

/-- C9 counterexample: for the lines theta1 = 0 and theta2 = pi we have
sin(theta2 - theta1) = 0, yet IntersectLines does not report the lines
as parallel — refuting "parallel iff sin(theta2 - theta1) == 0". -/
theorem intersectLines_sin_zero_not_parallel :
    ¬ ((intersectLines ⟨0, 1⟩ ⟨Real.pi, 1⟩ = none) ↔
        Real.sin (Real.pi - 0) = 0) := by
  intro h
  have hne : (0 : ℝ) ≠ Real.pi := fun h0 => Real.pi_ne_zero h0.symm
  have hsome : intersectLines ⟨0, 1⟩ ⟨Real.pi, 1⟩ ≠ none := by
    unfold intersectLines
    simp only [if_neg hne]
    exact Option.some_ne_none _
  exact hsome (h.mpr (by rw [sub_zero]; exact Real.sin_pi))

/-- C9 amended: IntersectLines reports the lines as parallel (returns
none, computing no intersection point) if and only if the two thetas are
exactly equal. -/
theorem intersectLines_parallel_iff (l₁ l₂ : GLine) :
    intersectLines l₁ l₂ = none ↔ l₁.theta = l₂.theta := by
  unfold intersectLines
  split
  · simpa using ‹l₁.theta = l₂.theta›
  · simpa using ‹¬l₁.theta = l₂.theta›

/-- fmodR is the identity on [0, y). -/
theorem fmodR_eq_self {x y : ℝ} (h0 : 0 ≤ x) (hxy : x < y) : fmodR x y = x := by
  have hy : 0 < y := lt_of_le_of_lt h0 hxy
  unfold fmodR rtrunc
  rw [if_pos (div_nonneg h0 hy.le)]
  have : ⌊x / y⌋ = 0 := by
    rw [Int.floor_eq_zero_iff]
    constructor
    · exact div_nonneg h0 hy.le
    · rw [div_lt_one hy]; exact hxy
  rw [this]
  push_cast
  ring

/-- fmodR subtracts one period on [y, 2y). -/
theorem fmodR_eq_sub {x y : ℝ} (h0 : y ≤ x) (hxy : x < 2 * y) (hy : 0 < y) :
    fmodR x y = x - y := by
  unfold fmodR rtrunc
  have hq0 : 0 ≤ x / y := div_nonneg (le_trans hy.le h0) hy.le
  rw [if_pos hq0]
  have hfl : ⌊x / y⌋ = 1 := by
    have h1 : (1 : ℝ) ≤ x / y := (le_div_iff₀ hy).mpr (by linarith)
    have h2 : x / y < 2 := (div_lt_iff₀ hy).mpr (by linarith)
    rw [Int.floor_eq_iff]
    constructor
    · exact_mod_cast h1
    · push_cast
      linarith
  rw [hfl]
  push_cast
  ring

/-- The value MeanTheta computes on the wrap-straddling pair
{6.2, 0.1}: exactly 3.15 - pi (about 0.0084). -/
theorem meanTheta_62_01 :
    meanTheta [⟨6.2, 0⟩, ⟨0.1, 0⟩] = 3.15 - Real.pi := by
  have hpi3 := Real.pi_gt_three
  have hpi4 := Real.pi_lt_four
  have hmin1 : min (Real.pi / 2) (6.2 : ℝ) = Real.pi / 2 :=
    min_eq_left (by nlinarith)
  have hmin2 : min (Real.pi / 2) (0.1 : ℝ) = 0.1 :=
    min_eq_right (by nlinarith)
  have hmax1 : max (0 : ℝ) 6.2 = 6.2 := max_eq_right (by norm_num)
  have hmax2 : max (6.2 : ℝ) 0.1 = 6.2 := max_eq_left (by norm_num)
  have hwrap : (0.1 : ℝ) < Real.pi / 2 ∧ 4 * Real.pi / 3 ≤ 6.2 :=
    ⟨by nlinarith, by nlinarith⟩
  unfold meanTheta
  simp only [List.foldl_cons, List.foldl_nil, List.length_cons, List.length_nil,
    hmin1, hmin2, hmax1, hmax2, if_pos hwrap]
  have e1 : (6.2 : ℝ) + (2 * Real.pi - 6.2 + 1) = 2 * Real.pi + 1 := by ring
  have e2 : (0.1 : ℝ) + (2 * Real.pi - 6.2 + 1) = 2 * Real.pi - 5.1 := by ring
  have f1 : fmodR (2 * Real.pi + 1) (2 * Real.pi) = 1 := by
    rw [fmodR_eq_sub (by nlinarith) (by nlinarith) (by nlinarith)]
    ring
  have f2 : fmodR (2 * Real.pi - 5.1) (2 * Real.pi) = 2 * Real.pi - 5.1 :=
    fmodR_eq_self (by nlinarith) (by nlinarith)
  have hpi315 := Real.pi_lt_d2
  rw [e1, e2, f1, f2, fmodR_eq_self (by push_cast; linarith) (by push_cast; linarith)]
  push_cast
  ring

/-- C8 counterexample: MeanTheta({6.2, 0.1}) is 3.15 - pi, which is not
within 1e-3 of 6.2414 (it is more than 6 away). -/
theorem meanTheta_62_01_not_near_62414 :
    ¬ |meanTheta [⟨6.2, 0⟩, ⟨0.1, 0⟩] - 6.2414| ≤ 1e-3 := by
  rw [meanTheta_62_01]
  have hpi4 := Real.pi_lt_four
  rw [abs_le]
  intro ⟨h1, _⟩
  norm_num at h1
  linarith [Real.pi_gt_three]

/-- C8 amended: MeanTheta({6.2, 0.1}) equals 3.15 - pi exactly, which is
within 1e-3 of 0.0084 (the circular mean near zero) and more than 1e-3
away from the naive arithmetic mean 3.15. -/
theorem meanTheta_62_01_near_wrap_mean :
    meanTheta [⟨6.2, 0⟩, ⟨0.1, 0⟩] = 3.15 - Real.pi ∧
      |(3.15 - Real.pi) - 0.0084| ≤ 1e-3 ∧
      ¬ |(3.15 - Real.pi) - 3.15| ≤ 1e-3 := by
  refine ⟨meanTheta_62_01, ?_, ?_⟩
  · have h1 := Real.pi_gt_d4
    have h2 := Real.pi_lt_d4
    rw [abs_le]
    constructor <;> norm_num <;> nlinarith
  · have h := Real.pi_gt_three
    rw [abs_le]
    intro ⟨h1, _⟩
    norm_num at h1
    nlinarith

/-! ### Hysteresis linking lemmas (C6) -/

/-- TryWeakEdge never touches the visited channel. -/
theorem tryWeakEdge_ch2 (st : EdgeState) (p : Nat × Nat) :
    (tryWeakEdge st p).ch2 = st.ch2 := by
  unfold tryWeakEdge
  split <;> rfl

/-- TryWeakEdge keeps strong pixels strong. -/
theorem tryWeakEdge_ch0_255 {st : EdgeState} {q : Nat × Nat} (p : Nat × Nat)
    (h : st.ch0 q = 255) : (tryWeakEdge st p).ch0 q = 255 := by
  unfold tryWeakEdge
  split
  · exact h
  · simp only [Function.update_apply]
    split <;> [rfl; exact h]

/-- TryWeakEdge never clears channel 0. -/
theorem tryWeakEdge_ch0_ne {st : EdgeState} {q : Nat × Nat} (p : Nat × Nat)
    (h : st.ch0 q ≠ 0) : (tryWeakEdge st p).ch0 q ≠ 0 := by
  unfold tryWeakEdge
  split
  · exact h
  · simp only [Function.update_apply]
    split <;> simp [h]

/-- TryWeakEdge preserves "strong already, or still weak". -/
theorem tryWeakEdge_weakOrStrong {st : EdgeState} {q : Nat × Nat} (p : Nat × Nat)
    (h : st.ch0 q = 255 ∨ st.ch1 q ≠ 0) :
    (tryWeakEdge st p).ch0 q = 255 ∨ (tryWeakEdge st p).ch1 q ≠ 0 := by
  unfold tryWeakEdge
  split
  · exact h
  · simp only [Function.update_apply]
    by_cases hq : q = p
    · left
      rw [if_pos hq]
    · rw [if_neg hq, if_neg hq]
      exact h

/-- Folding TryWeakEdge over any neighbour list keeps the visited channel. -/
theorem tryFold_ch2 (l : List (Nat × Nat)) (st : EdgeState) :
    (l.foldl tryWeakEdge st).ch2 = st.ch2 := by
  induction l generalizing st with
  | nil => rfl
  | cons a l ih => rw [List.foldl_cons, ih, tryWeakEdge_ch2]

/-- Folding TryWeakEdge keeps strong pixels strong. -/
theorem tryFold_ch0_255 {q : Nat × Nat} (l : List (Nat × Nat)) {st : EdgeState}
    (h : st.ch0 q = 255) : (l.foldl tryWeakEdge st).ch0 q = 255 := by
  induction l generalizing st with
  | nil => exact h
  | cons a l ih => exact ih (tryWeakEdge_ch0_255 a h)

/-- Folding TryWeakEdge never clears channel 0. -/
theorem tryFold_ch0_ne {q : Nat × Nat} (l : List (Nat × Nat)) {st : EdgeState}
    (h : st.ch0 q ≠ 0) : (l.foldl tryWeakEdge st).ch0 q ≠ 0 := by
  induction l generalizing st with
  | nil => exact h
  | cons a l ih => exact ih (tryWeakEdge_ch0_ne a h)

/-- Folding TryWeakEdge preserves "strong already, or still weak". -/
theorem tryFold_weakOrStrong {q : Nat × Nat} (l : List (Nat × Nat)) {st : EdgeState}
    (h : st.ch0 q = 255 ∨ st.ch1 q ≠ 0) :
    (l.foldl tryWeakEdge st).ch0 q = 255 ∨ (l.foldl tryWeakEdge st).ch1 q ≠ 0 := by
  induction l generalizing st with
  | nil => exact h
  | cons a l ih => exact ih (tryWeakEdge_weakOrStrong a h)

/-- A weak-or-strong pixel in the tried list is strong afterwards. -/
theorem tryFold_promotes {q : Nat × Nat} (l : List (Nat × Nat)) {st : EdgeState}
    (hq : q ∈ l) (h : st.ch0 q = 255 ∨ st.ch1 q ≠ 0) :
    (l.foldl tryWeakEdge st).ch0 q = 255 := by
  induction l generalizing st with
  | nil => cases hq
  | cons a l ih =>
    rw [List.foldl_cons]
    rcases List.mem_cons.mp hq with rfl | hmem
    · have h255 : (tryWeakEdge st q).ch0 q = 255 := by
        unfold tryWeakEdge
        split
        · rcases h with h | h
          · exact h
          · exact absurd ‹st.ch1 q = 0› h
        · simp [Function.update_apply]
      exact tryFold_ch0_255 l h255
    · exact ih hmem (tryWeakEdge_weakOrStrong a h)

/-- One scan position keeps strong pixels strong. -/
theorem hystStep_ch0_255 {s : EdgeState × Bool} {q : Nat × Nat} (p : Nat × Nat)
    (h : s.1.ch0 q = 255) : (hystStep s p).1.ch0 q = 255 := by
  unfold hystStep
  split
  · exact h
  · exact tryFold_ch0_255 _ h

/-- One scan position never clears channel 0. -/
theorem hystStep_ch0_ne {s : EdgeState × Bool} {q : Nat × Nat} (p : Nat × Nat)
    (h : s.1.ch0 q ≠ 0) : (hystStep s p).1.ch0 q ≠ 0 := by
  unfold hystStep
  split
  · exact h
  · exact tryFold_ch0_ne _ h

/-- One scan position at p leaves the visited flag of any other pixel. -/
theorem hystStep_ch2_other {s : EdgeState × Bool} {p r : Nat × Nat} (h : r ≠ p) :
    (hystStep s p).1.ch2 r = s.1.ch2 r := by
  unfold hystStep
  split
  · rfl
  · rw [tryFold_ch2]
    simp only [Function.update_apply, if_neg h]

/-- One scan position preserves "strong already, or still weak". -/
theorem hystStep_weakOrStrong {s : EdgeState × Bool} {q : Nat × Nat} (p : Nat × Nat)
    (h : s.1.ch0 q = 255 ∨ s.1.ch1 q ≠ 0) :
    (hystStep s p).1.ch0 q = 255 ∨ (hystStep s p).1.ch1 q ≠ 0 := by
  unfold hystStep
  split
  · exact h
  · exact tryFold_weakOrStrong _ h

/-- Once the scan has found a pixel, the flag stays set. -/
theorem hystFold_true (l : List (Nat × Nat)) (st : EdgeState) :
    (l.foldl hystStep (st, true)).2 = true := by
  induction l generalizing st with
  | nil => rfl
  | cons a l ih =>
    rw [List.foldl_cons]
    unfold hystStep
    split
    · exact ih st
    · exact ih _

/-- The rest of the scan keeps strong pixels strong. -/
theorem hystFold_ch0_255 {q : Nat × Nat} (l : List (Nat × Nat))
    {s : EdgeState × Bool} (h : s.1.ch0 q = 255) :
    (l.foldl hystStep s).1.ch0 q = 255 := by
  induction l generalizing s with
  | nil => exact h
  | cons a l ih => exact ih (hystStep_ch0_255 a h)

/-- A scan that found nothing changed nothing (the justification for
modelling the non-terminating `while(!found)` case as `none`). -/
theorem hystFold_unproductive (l : List (Nat × Nat)) (st : EdgeState) (b : Bool)
    (h : (l.foldl hystStep (st, b)).2 = false) :
    (l.foldl hystStep (st, b)).1 = st ∧ b = false := by
  induction l generalizing st b with
  | nil => exact ⟨rfl, h⟩
  | cons a l ih =>
    rw [List.foldl_cons] at h ⊢
    by_cases hskip : st.ch0 a = 0 ∨ st.ch2 a = 255
    · have hstep : hystStep (st, b) a = (st, b) := by
        unfold hystStep
        rw [if_pos hskip]
      rw [hstep] at h ⊢
      exact ih st b h
    · have hstep : (hystStep (st, b) a).2 = true := by
        unfold hystStep
        rw [if_neg hskip]
      have hpair : hystStep (st, b) a = ((hystStep (st, b) a).1, true) := by
        rw [← hstep]
      rw [hpair, hystFold_true] at h
      cases h

/-- An unproductive hysteresis scan is the identity on the pixel state. -/
theorem hysteresisPass_unproductive (w h : Nat) (st : EdgeState)
    (hfail : (hysteresisPass w h st).2 = false) : (hysteresisPass w h st).1 = st :=
  (hystFold_unproductive _ st false hfail).1

/-- The scan promotes every weak 8-neighbour of a strong, unvisited pixel
it reaches, and reports that it found something. -/
theorem scanFold_promotes (q : Nat × Nat) (l : List (Nat × Nat)) :
    ∀ (st : EdgeState) (b : Bool) (p : Nat × Nat), p ∈ l → st.ch0 p ≠ 0 →
      st.ch2 p ≠ 255 → q ∈ neighborList p.1 p.2 →
      (st.ch0 q = 255 ∨ st.ch1 q ≠ 0) →
      (l.foldl hystStep (st, b)).1.ch0 q = 255 ∧ (l.foldl hystStep (st, b)).2 = true := by
  induction l with
  | nil =>
    intro st b p hp _ _ _ _
    cases hp
  | cons a l ih =>
    intro st b p hp hstrong hunvis hq hweak
    rw [List.foldl_cons]
    by_cases hap : a = p
    · subst hap
      have hskip : ¬(st.ch0 a = 0 ∨ st.ch2 a = 255) := by
        push_neg
        exact ⟨hstrong, hunvis⟩
      have hstep : hystStep (st, b) a =
          ((neighborList a.1 a.2).foldl tryWeakEdge
             { st with ch2 := Function.update st.ch2 a 255 }, true) := by
        unfold hystStep
        rw [if_neg hskip]
      rw [hstep]
      constructor
      · exact hystFold_ch0_255 l (tryFold_promotes _ hq hweak)
      · exact hystFold_true l _
    · have hp' : p ∈ l := by
        rcases List.mem_cons.mp hp with h | h
        · exact absurd h.symm hap
        · exact h
      have h1 : (hystStep (st, b) a).1.ch0 p ≠ 0 := hystStep_ch0_ne a hstrong
      have h2 : (hystStep (st, b) a).1.ch2 p ≠ 255 := by
        rw [hystStep_ch2_other (fun hpa => hap hpa.symm)]
        exact hunvis
      have h3 : (hystStep (st, b) a).1.ch0 q = 255 ∨ (hystStep (st, b) a).1.ch1 q ≠ 0 :=
        hystStep_weakOrStrong a hweak
      have hrec := ih (hystStep (st, b) a).1 (hystStep (st, b) a).2 p hp' h1 h2 hq h3
      rwa [Prod.mk.eta] at hrec

/-- Membership in the interior scan order. -/
theorem mem_interiorCells (w h x y : Nat) :
    (x, y) ∈ interiorCells w h ↔ 1 ≤ x ∧ x < w - 1 ∧ 1 ≤ y ∧ y < h - 1 := by
  simp only [interiorCells, List.mem_flatMap, List.mem_map, List.mem_range'_1,
    Prod.mk.injEq]
  constructor
  · rintro ⟨y', hy', x', hx', rfl, rfl⟩
    omega
  · rintro ⟨hx1, hx2, hy1, hy2⟩
    exact ⟨y, by omega, x, by omega, rfl, rfl⟩

/-- C6 counterexample: on a 5x5 state with a strong pixel at (3, 3) and
weak pixels at (2, 2) and (1, 1), the hysteresis phase promotes (2, 2)
but leaves (1, 1) weak even though (1, 1) is 8-adjacent to the now
strong (2, 2), and (1, 1)'s weak channel is not demoted to 0 — the
strong set is not the flood-fill closure and weak pixels are not
cleared. -/
theorem hysteresis_not_closure_counterexample :
    (hysteresisPass 5 5 hystExample).2 = true ∧
      (hysteresisPass 5 5 hystExample).1.ch0 (2, 2) = 255 ∧
      (2, 2) ∈ neighborList 1 1 ∧
      (hysteresisPass 5 5 hystExample).1.ch0 (1, 1) = 0 ∧
      (hysteresisPass 5 5 hystExample).1.ch1 (1, 1) = 100 := by
  refine ⟨by decide, by decide, by decide, by decide, by decide⟩

/-- C6 amended: the hysteresis loop exits right after its first
productive scan (and diverges when there is no strong pixel at all).
During that single scan every interior strong unvisited pixel is visited
in row-major order and each of its 8-neighbours that was weak (or
already strong) ends up strong; the scan does not iterate to the
flood-fill closure and does not demote remaining weak pixels. -/
theorem hysteresis_one_pass_promotes (w h : Nat) (st : EdgeState) (x y : Nat)
    (q : Nat × Nat) (hx1 : 1 ≤ x) (hx2 : x < w - 1) (hy1 : 1 ≤ y) (hy2 : y < h - 1)
    (hstrong : st.ch0 (x, y) ≠ 0) (hunvis : st.ch2 (x, y) ≠ 255)
    (hq : q ∈ neighborList x y) (hweak : st.ch0 q = 255 ∨ st.ch1 q ≠ 0) :
    hysteresis w h st = some (hysteresisPass w h st).1 ∧
      (hysteresisPass w h st).1.ch0 q = 255 := by
  have hp : (x, y) ∈ interiorCells w h :=
    (mem_interiorCells w h x y).mpr ⟨hx1, hx2, hy1, hy2⟩
  have hmain := scanFold_promotes q (interiorCells w h) st false (x, y)
    hp hstrong hunvis hq hweak
  refine ⟨?_, hmain.1⟩
  unfold hysteresisPass at hmain
  simp only [hysteresis, hysteresisPass, hmain.2, if_true]

/-- C6 witness: the amended theorem applied to the concrete 5x5 state,
with the seed (3, 3) and its weak neighbour (2, 2). -/
theorem hysteresis_one_pass_promotes_witness :
    hysteresis 5 5 hystExample = some (hysteresisPass 5 5 hystExample).1 ∧
      (hysteresisPass 5 5 hystExample).1.ch0 (2, 2) = 255 :=
  hysteresis_one_pass_promotes 5 5 hystExample 3 3 (2, 2)
    (by decide) (by decide) (by decide) (by decide)
    (by decide) (by decide) (by decide) (Or.inr (by decide))

/-! ### Solvable evaluation lemmas -/

/-- Writing a cell's own value back is the identity. -/
theorem list_set_getD_self (l : List Nat) (i : Nat) : l.set i (l.getD i 0) = l := by
  induction l generalizing i with
  | nil => rfl
  | cons a l ih =>
    cases i with
    | zero => rfl
    | succ i => simpa [List.set, List.getD] using ih i

/-- A digit can only be in an available-choices set if it is 1..9. -/
theorem choicesContains_availableChoices_bounds {g : Game} {x y d : Nat}
    (h : choicesContains (availableChoices g x y) d = true) : 1 ≤ d ∧ d ≤ 9 := by
  unfold availableChoices choicesIntersection choicesContains at h
  by_cases hb : 1 ≤ d ∧ d ≤ 9
  · exact hb
  · simp [hb] at h

/-- Clearing a cell and writing its old (≤ 9) value back restores the
board. -/
theorem gameSet_restore {g : Game} {x y : Nat} (hx : x < 9) (hy : y < 9)
    (hd : gameGet g x y ≤ 9) :
    gameSet (gameSet g x y 0) x y (gameGet g x y) = g := by
  have hin : ¬(9 ≤ x ∨ 9 ≤ y ∨ 10 ≤ (0 : Nat)) := by omega
  have hin' : ¬(9 ≤ x ∨ 9 ≤ y ∨ 10 ≤ gameGet g x y) := by omega
  have hget : gameGet g x y = g.getD (y * 9 + x) 0 := by
    unfold gameGet
    rw [if_neg (by omega)]
  unfold gameSet
  rw [if_neg hin, if_neg hin', List.set_set, hget, list_set_getD_self]

/-- The literal Solvable body and the restore-free form agree. -/
theorem solvableAux_eq_cells (g : Game) (cells : List (Nat × Nat)) :
    solvableAux g cells = solvableCells g cells := by
  induction cells generalizing g with
  | nil => rfl
  | cons c rest ih =>
    obtain ⟨x, y⟩ := c
    unfold solvableAux solvableCells
    by_cases h0 : gameGet g x y = 0
    · simp only [h0, if_pos rfl, ih]
      simp [h0]
    · simp only [if_neg h0]
      by_cases hc : choicesContains (availableChoices (gameSet g x y 0) x y)
          (gameGet g x y) = true
      · obtain ⟨h1, h9⟩ := choicesContains_availableChoices_bounds hc
        have hx : x < 9 := by
          by_contra hx
          exact h0 (by unfold gameGet; rw [if_pos (Or.inl (by omega))])
        have hy : y < 9 := by
          by_contra hy
          exact h0 (by unfold gameGet; rw [if_pos (Or.inr (by omega))])
        rw [hc, if_pos rfl, if_pos rfl, gameSet_restore hx hy h9, ih]
      · rw [Bool.not_eq_true] at hc
        rw [hc]
        simp

/-- Solvable agrees with its restore-free evaluation form. -/
theorem solvable_eq_cells (g : Game) : solvable g = solvableCells g cellsRowMajor :=
  solvableAux_eq_cells g cellsRowMajor

/-! ### CachedPuzzleSolver theorems (C1, C5) -/

/-- C1: a valid, solvable query with at least 21 clues that misses the
cache but differs from the most-recently-used cached entry's key in
fewer than 4 positions returns true and outputs that entry's cached
solution instead of reporting "not ready". (The cache and the
most-recently-used entry are read on the state after the initial poll
of the background future.) -/
theorem cachedSolve_near_match (s : SolverState) (digits k : List Nat)
    (h81 : digits.length = 81) (h9 : ∀ d ∈ digits, d ≤ 9)
    (hsolv : solvable (digitsToGame digits) = true)
    (hclues : 21 ≤ digits.countP (fun d => 0 < d))
    (hmiss : cacheFind (pollState s).solvedPuzzles digits = none)
    (hmru : getMostLikelyKey (pollState s) = some k)
    (hnear : diffCount digits k < 4) :
    (cachedSolve s digits).1 = true ∧
      (cachedSolve s digits).2.1 = some (cachedDigitsAt (pollState s) k) := by
  have c2 : digits.any (fun d => 9 < d) = false := by
    rw [List.any_eq_false]
    intro d hd
    simpa using Nat.not_lt.mpr (h9 d hd)
  have c4 : ¬ digits.countP (fun d => 0 < d) < 21 := Nat.not_lt.mpr hclues
  simp only [cachedSolve, h81, ne_eq, not_true_eq_false, if_false, c2,
    Bool.false_eq_true, hsolv, Bool.true_eq_false, c4, hmiss, hmru,
    if_pos hnear, ite_false]
  exact ⟨trivial, trivial⟩

/-- C1 witness: the near-match theorem on a concrete state whose single
cached, recently-used entry differs from the Shortz query in one
position. -/
theorem cachedSolve_near_match_witness :
    (cachedSolve nearState shortzPuzzle).1 = true ∧
      (cachedSolve nearState shortzPuzzle).2.1 =
        some (cachedDigitsAt (pollState nearState) nearKey) :=
  cachedSolve_near_match nearState shortzPuzzle nearKey (by decide) (by decide)
    (by rw [solvable_eq_cells]; decide) (by decide) (by decide) (by decide) (by decide)

/-- C5 counterexample: a valid, solvable query with only 20 clues does
return false, but the call does not leave the solution cache unchanged:
the end-of-call bookkeeping pops the oldest recently-used entry and
decrements its use counter inside the cache. -/
theorem cachedSolve_few_clues_counterexample :
    (cachedSolve ruState puzzle20).1 = false ∧
      (cachedSolve ruState puzzle20).2.2 ≠ ruState ∧
      cacheFind (cachedSolve ruState puzzle20).2.2.solvedPuzzles shortzSolution =
        some ⟨shortzSolution, 0⟩ ∧
      cacheFind ruState.solvedPuzzles shortzSolution = some ⟨shortzSolution, 1⟩ := by
  have hsolv : solvable (digitsToGame puzzle20) = true := by
    rw [solvable_eq_cells]
    decide
  have h81 : puzzle20.length = 81 := by decide
  have c2 : puzzle20.any (fun d => 9 < d) = false := by decide
  have hfew : puzzle20.countP (fun d => 0 < d) < 21 := by decide
  have hpoll : pollState ruState = ruState := rfl
  have hmain : cachedSolve ruState puzzle20 = (false, none, ruPop ruState) := by
    simp only [cachedSolve, hpoll, h81, ne_eq, not_true_eq_false, if_false, c2,
      Bool.false_eq_true, hsolv, Bool.true_eq_false, if_pos hfew, ite_false]
  rw [hmain]
  refine ⟨by decide, by decide, by decide, by decide⟩

/-- C5 amended: a valid, solvable query with fewer than 21 clues
returns false and launches nothing; provided additionally that no
completed background task is pending and the recently-used queue is
empty, the entire solver state is returned unchanged. -/
theorem cachedSolve_few_clues_no_launch (s : SolverState) (digits : List Nat)
    (h81 : digits.length = 81) (h9 : ∀ d ∈ digits, d ≤ 9)
    (hsolv : solvable (digitsToGame digits) = true)
    (hfew : digits.countP (fun d => 0 < d) < 21)
    (hfut : ∀ b, s.future ≠ some (some b))
    (hdq : s.recentlyUsedSolutions = []) :
    cachedSolve s digits = (false, none, s) := by
  have hpoll : pollState s = s := by
    unfold pollState
    match hs : s.future with
    | none => rfl
    | some none => rfl
    | some (some b) => exact absurd hs (hfut b)
  have c2 : digits.any (fun d => 9 < d) = false := by
    rw [List.any_eq_false]
    intro d hd
    simpa using Nat.not_lt.mpr (h9 d hd)
  have hru : ruPop s = s := by
    unfold ruPop
    rw [hdq]
  simp only [cachedSolve, hpoll, h81, ne_eq, not_true_eq_false, if_false, c2,
    Bool.false_eq_true, hsolv, Bool.true_eq_false, if_pos hfew, ite_false, hru]

/-- C5 witness: the amended theorem on the empty solver state and the
20-clue puzzle. -/
theorem cachedSolve_few_clues_no_launch_witness :
    cachedSolve freshState puzzle20 = (false, none, freshState) :=
  cachedSolve_few_clues_no_launch freshState puzzle20 (by decide) (by decide)
    (by rw [solvable_eq_cells]; decide) (by decide) (by decide) rfl

/-! ### HoughTransform theorems (C7) -/

/-- Bounds for the diagonal of a 40x40 input. -/
theorem sqrt3200_bounds : (56 : ℝ) < Real.sqrt 3200 ∧ Real.sqrt 3200 < 57 := by
  have hsq := Real.sq_sqrt (show (0 : ℝ) ≤ 3200 by norm_num)
  have hnn := Real.sqrt_nonneg (3200 : ℝ)
  constructor <;> nlinarith

/-- C7 counterexample: for the 40x40 input, a 360x40 accumulator, the
edge pixel (20, 20) and column z = 0 (theta = 0, so rho_f = 20), the
code increments row 27 — the [-diag, diag] mapping
rho_f*(H/2)/diag + H/2 — while the claim's [0, diag] mapping
rho_f/diag*H names row 14. -/
theorem hough_row_counterexample :
    houghRow 40 40 40 360 20 20 0 = 27 ∧ houghRowClaim 40 40 40 360 20 20 0 = 14 := by
  have htheta : houghTheta 360 0 = 0 := by simp [houghTheta]
  obtain ⟨h56, h57⟩ := sqrt3200_bounds
  have hpos : (0 : ℝ) < Real.sqrt 3200 := lt_trans (by norm_num) h56
  have hlo : (400 : ℝ) / 57 < 400 / Real.sqrt 3200 :=
    div_lt_div_of_pos_left (by norm_num) hpos h57
  have hhi : (400 : ℝ) / Real.sqrt 3200 < 400 / 56 :=
    div_lt_div_of_pos_left (by norm_num) (by norm_num) h56
  have hlo2 : (800 : ℝ) / 57 < 800 / Real.sqrt 3200 :=
    div_lt_div_of_pos_left (by norm_num) hpos h57
  have hhi2 : (800 : ℝ) / Real.sqrt 3200 < 800 / 56 :=
    div_lt_div_of_pos_left (by norm_num) (by norm_num) h56
  have hsq : (((40 : ℕ) : ℝ)) ^ 2 + (((40 : ℕ) : ℝ)) ^ 2 = 3200 := by
    push_cast
    norm_num
  constructor
  · simp only [houghRow, houghRowF]
    rw [htheta, Real.cos_zero, Real.sin_zero, hsq]
    have he : (((20 : ℕ) : ℝ) * 1 + ((20 : ℕ) : ℝ) * 0) *
        (((40 : ℕ) : ℝ) / 2 / Real.sqrt 3200) + ((40 : ℕ) : ℝ) / 2 =
        400 / Real.sqrt 3200 + 20 := by
      push_cast
      ring
    rw [he]
    have hfl : ⌊(400 / Real.sqrt 3200 + 20 : ℝ)⌋ = 27 := by
      rw [Int.floor_eq_iff]
      constructor
      · push_cast
        linarith
      · push_cast
        linarith
    rw [hfl]
    decide
  · simp only [houghRowClaim]
    rw [htheta, Real.cos_zero, Real.sin_zero, hsq]
    have he : (((20 : ℕ) : ℝ) * 1 + ((20 : ℕ) : ℝ) * 0) / Real.sqrt 3200 *
        ((40 : ℕ) : ℝ) = 800 / Real.sqrt 3200 := by
      push_cast
      ring
    rw [he]
    have hfl : ⌊(800 / Real.sqrt 3200 : ℝ)⌋ = 14 := by
      rw [Int.floor_eq_iff]
      constructor
      · push_cast
        linarith
      · push_cast
        linarith
    rw [hfl]
    decide

/-- Folding HoughTransform votes from any in-range accumulator: each
cell ends at the saturating minimum of its start value plus its vote
count. -/
theorem houghVote_foldl_apply (w h H W : Nat) (l : List ((Nat × Nat) × Nat))
    (acc : Nat × Nat → Nat) (cell : Nat × Nat) (hk : acc cell ≤ 65535) :
    (l.foldl (houghVote w h H W) acc) cell =
      min (acc cell +
        l.countP (fun pz =>
          decide ((houghRow w h H W pz.1.1 pz.1.2 pz.2, pz.2) = cell))) 65535 := by
  induction l generalizing acc with
  | nil =>
    simp only [List.foldl_nil, List.countP_nil, Nat.add_zero]
    omega
  | cons b l ih =>
    rw [List.foldl_cons]
    have hk' : houghVote w h H W acc b cell ≤ 65535 := by
      unfold houghVote
      rw [Function.update_apply]
      split
      · rename_i heq
        rw [← heq]
        unfold houghInc
        split <;> omega
      · exact hk
    rw [ih _ hk']
    by_cases hb : (houghRow w h H W b.1.1 b.1.2 b.2, b.2) = cell
    · have hcnt : List.countP
          (fun pz => decide ((houghRow w h H W pz.1.1 pz.1.2 pz.2, pz.2) = cell))
          (b :: l) =
          List.countP
            (fun pz => decide ((houghRow w h H W pz.1.1 pz.1.2 pz.2, pz.2) = cell))
            l + 1 := by
        rw [List.countP_cons]
        simp [hb]
      have hv : houghVote w h H W acc b cell = houghInc (acc cell) := by
        unfold houghVote
        rw [hb, Function.update_same]
      rw [hcnt, hv]
      unfold houghInc
      split <;> omega
    · have hcnt : List.countP
          (fun pz => decide ((houghRow w h H W pz.1.1 pz.1.2 pz.2, pz.2) = cell))
          (b :: l) =
          List.countP
            (fun pz => decide ((houghRow w h H W pz.1.1 pz.1.2 pz.2, pz.2) = cell))
            l := by
        rw [List.countP_cons]
        simp [hb]
      have hv : houghVote w h H W acc b cell = acc cell := by
        unfold houghVote
        exact Function.update_noteq (fun hc => hb hc.symm) _ acc
      rw [hcnt, hv]

/-- C7 amended: in the accumulator HoughTransform produces (zero-filled
at entry), the cell in column z for edge pixel (x, y) lies in the row
houghRow (the truncated, clamped rho_f*(H/2)/diag + H/2, discretising
rho over [-diag, diag]), and every cell holds the saturating minimum of
its total vote count and 0xFFFF. -/
theorem houghTransform_cell_votes (img : Nat → Nat → Bool) (w h H W : Nat)
    (cell : Nat × Nat) :
    houghTransform img w h H W cell =
      min ((houghVoteList img w h W).countP
        (fun pz =>
          decide ((houghRow w h H W pz.1.1 pz.1.2 pz.2, pz.2) = cell))) 65535 := by
  have h := houghVote_foldl_apply w h H W (houghVoteList img w h W)
    (fun _ => 0) cell (by norm_num)
  simpa only [houghTransform, Nat.zero_add] using h


/-! ### Solvable characterisation (C4) -/

/-- Membership in the row-major cell traversal. -/
theorem mem_cellsRowMajor (x y : Nat) :
    (x, y) ∈ cellsRowMajor ↔ x < 9 ∧ y < 9 := by
  simp only [cellsRowMajor, List.mem_flatMap, List.mem_map, List.mem_range,
    Prod.mk.injEq]
  constructor
  · rintro ⟨y', hy', x', hx', rfl, rfl⟩
    omega
  · rintro ⟨hx, hy⟩
    exact ⟨y, by omega, x, by omega, rfl, rfl⟩

/-- Membership after folding inserts of mapped values. -/
theorem contains_foldl_insert_map {α : Type} (f : α → Nat) (l : List α)
    (c : Choices) (d : Nat) :
    ((l.foldl (fun c x => choicesInsert c (f x)) c) d = true) ↔
      (c d = true ∨ ∃ x ∈ l, f x = d) := by
  induction l generalizing c with
  | nil => simp
  | cons a l ih =>
    rw [List.foldl_cons, ih]
    simp only [choicesInsert, Function.update_apply, List.mem_cons]
    constructor
    · rintro (h | ⟨x, hx, hfx⟩)
      · split at h
        · rename_i hd
          exact Or.inr ⟨a, Or.inl rfl, hd.symm⟩
        · exact Or.inl h
      · exact Or.inr ⟨x, Or.inr hx, hfx⟩
    · rintro (h | ⟨x, hx | hx, hfx⟩)
      · refine Or.inl ?_
        split
        · rfl
        · exact h
      · subst hx
        refine Or.inl ?_
        rw [if_pos hfx.symm]
      · exact Or.inr ⟨x, hx, hfx⟩

/-- Membership after the nested block-insert fold. -/
theorem contains_foldl2_insert_map (f : Nat → Nat → Nat) (l₁ l₂ : List Nat)
    (c : Choices) (d : Nat) :
    ((l₂.foldl (fun c j => l₁.foldl (fun c i => choicesInsert c (f i j)) c) c) d
        = true) ↔
      (c d = true ∨ ∃ j ∈ l₂, ∃ i ∈ l₁, f i j = d) := by
  induction l₂ generalizing c with
  | nil => simp
  | cons a l ih =>
    rw [List.foldl_cons, ih, contains_foldl_insert_map (fun i => f i a) l₁ c d]
    simp only [List.mem_cons]
    constructor
    · rintro ((h | ⟨i, hi, hfi⟩) | ⟨j, hj, i, hi, hfi⟩)
      · exact Or.inl h
      · exact Or.inr ⟨a, Or.inl rfl, i, hi, hfi⟩
      · exact Or.inr ⟨j, Or.inr hj, i, hi, hfi⟩
    · rintro (h | ⟨j, hj | hj, i, hi, hfi⟩)
      · exact Or.inl (Or.inl h)
      · subst hj
        exact Or.inl (Or.inr ⟨i, hi, hfi⟩)
      · exact Or.inr ⟨j, hj, i, hi, hfi⟩

/-- The row complement holds d (1..9) iff d is absent from the row. -/
theorem available_row_iff (g : Game) (y d : Nat) (h1 : 1 ≤ d) (h9 : d ≤ 9) :
    (availableHorizontalChoices g y d = true) ↔
      ∀ x', x' < 9 → gameGet g x' y ≠ d := by
  unfold availableHorizontalChoices choicesInverted
  rw [if_pos ⟨h1, h9⟩, Bool.not_eq_true']
  rw [Bool.eq_false_iff, Ne, contains_foldl_insert_map (fun x => gameGet g x y)]
  simp only [choicesEmpty, Bool.false_eq_true, false_or, List.mem_range]
  push_neg
  constructor
  · intro h x' hx' heq
    exact h x' hx' heq
  · intro h x' hx' heq
    exact h x' hx' heq

/-- The column complement holds d (1..9) iff d is absent from the
column. -/
theorem available_col_iff (g : Game) (x d : Nat) (h1 : 1 ≤ d) (h9 : d ≤ 9) :
    (availableVerticalChoices g x d = true) ↔
      ∀ y', y' < 9 → gameGet g x y' ≠ d := by
  unfold availableVerticalChoices choicesInverted
  rw [if_pos ⟨h1, h9⟩, Bool.not_eq_true']
  rw [Bool.eq_false_iff, Ne, contains_foldl_insert_map (fun y => gameGet g x y)]
  simp only [choicesEmpty, Bool.false_eq_true, false_or, List.mem_range]
  push_neg
  constructor
  · intro h y' hy' heq
    exact h y' hy' heq
  · intro h y' hy' heq
    exact h y' hy' heq

/-- The block complement holds d (1..9) iff d is absent from the 3x3
block. -/
theorem available_square_iff (g : Game) (x y d : Nat) (h1 : 1 ≤ d) (h9 : d ≤ 9) :
    (availableSquareChoices g x y d = true) ↔
      ∀ i, i < 3 → ∀ j, j < 3 → gameGet g (x / 3 * 3 + i) (y / 3 * 3 + j) ≠ d := by
  unfold availableSquareChoices choicesInverted
  rw [if_pos ⟨h1, h9⟩, Bool.not_eq_true']
  rw [Bool.eq_false_iff, Ne,
    contains_foldl2_insert_map (fun i j => gameGet g (x / 3 * 3 + i) (y / 3 * 3 + j))]
  simp only [choicesEmpty, Bool.false_eq_true, false_or, List.mem_range]
  push_neg
  constructor
  · intro h i hi j hj heq
    exact h j hj i hi heq
  · intro h j hj i hi heq
    exact h i hi j hj heq

/-- AvailableChoices holds d (1..9) iff d is absent from the row, the
column and the block. -/
theorem available_iff (g : Game) (x y d : Nat) (h1 : 1 ≤ d) (h9 : d ≤ 9) :
    (choicesContains (availableChoices g x y) d = true) ↔
      ((∀ x', x' < 9 → gameGet g x' y ≠ d) ∧
       (∀ y', y' < 9 → gameGet g x y' ≠ d) ∧
       (∀ i, i < 3 → ∀ j, j < 3 → gameGet g (x / 3 * 3 + i) (y / 3 * 3 + j) ≠ d)) := by
  simp only [availableChoices, choicesIntersection, choicesContains]
  rw [if_pos ⟨h1, h9⟩, if_pos ⟨h1, h9⟩, Bool.and_eq_true, Bool.and_eq_true]
  rw [available_row_iff g y d h1 h9, available_col_iff g x d h1 h9,
    available_square_iff g x y d h1 h9]
  tauto

/-- Reading another cell after clearing (x, y). -/
theorem gameGet_gameSet_zero (g : Game) (x y x' y' : Nat) (hx : x < 9) (hy : y < 9) :
    gameGet (gameSet g x y 0) x' y' =
      if x' = x ∧ y' = y then 0 else gameGet g x' y' := by
  unfold gameGet gameSet
  rw [if_neg (by omega : ¬(9 ≤ x ∨ 9 ≤ y ∨ 10 ≤ (0 : Nat)))]
  by_cases hb : 9 ≤ x' ∨ 9 ≤ y'
  · rw [if_pos hb]
    by_cases h : x' = x ∧ y' = y
    · omega
    · rw [if_neg h, if_pos hb]
  · rw [if_neg hb]
    by_cases h : x' = x ∧ y' = y
    · rw [if_pos h, h.1, h.2]
      have : ∀ (l : List Nat) (i : Nat), (l.set i 0).getD i 0 = 0 := by
        intro l
        induction l with
        | nil => intro i; cases i <;> rfl
        | cons a l ih =>
          intro i
          cases i with
          | zero => rfl
          | succ i => exact ih i
      exact this g (y * 9 + x)
    · rw [if_neg h, if_neg hb]
      have hne : y' * 9 + x' ≠ y * 9 + x := by omega
      have : ∀ (l : List Nat) (i j : Nat) (v : Nat), i ≠ j →
          (l.set i v).getD j 0 = l.getD j 0 := by
        intro l
        induction l with
        | nil => intro i j v _; cases i <;> rfl
        | cons a l ih =>
          intro i j v hij
          cases i with
          | zero =>
            cases j with
            | zero => exact absurd rfl hij
            | succ j => rfl
          | succ i =>
            cases j with
            | zero => rfl
            | succ j => exact ih i j v (fun h => hij (by omega))
      exact this g (y * 9 + x) (y' * 9 + x') 0 (fun h => hne h.symm)

/-- solvableCells over a cell list is the conjunction of the per-cell
checks. -/
theorem solvableCells_iff (g : Game) (cells : List (Nat × Nat)) :
    solvableCells g cells = true ↔
      ∀ p ∈ cells, gameGet g p.1 p.2 = 0 ∨
        choicesContains (availableChoices (gameSet g p.1 p.2 0) p.1 p.2)
          (gameGet g p.1 p.2) = true := by
  induction cells with
  | nil => simp [solvableCells]
  | cons c rest ih =>
    obtain ⟨x, y⟩ := c
    unfold solvableCells
    by_cases h0 : gameGet g x y = 0
    · rw [if_pos h0, ih]
      constructor
      · intro h p hp
        rcases List.mem_cons.mp hp with rfl | hp
        · exact Or.inl h0
        · exact h p hp
      · intro h p hp
        exact h p (List.mem_cons_of_mem _ hp)
    · rw [if_neg h0]
      by_cases hc : choicesContains (availableChoices (gameSet g x y 0) x y)
          (gameGet g x y) = true
      · rw [hc, if_pos rfl, ih]
        constructor
        · intro h p hp
          rcases List.mem_cons.mp hp with rfl | hp
          · exact Or.inr hc
          · exact h p hp
        · intro h p hp
          exact h p (List.mem_cons_of_mem _ hp)
      · rw [Bool.not_eq_true] at hc
        rw [hc]
        simp only [Bool.false_eq_true, if_false, false_iff]
        intro h
        rcases h (x, y) (List.mem_cons_self _ _) with h' | h'
        · exact h0 h'
        · rw [hc] at h'
          cases h'


/-- C4: Solvable returns true iff no row, no column and no 3x3 block
contains the same non-zero digit more than once (for boards whose cells
hold digits at most 9, the only boards the program constructs). -/
theorem solvable_iff_noDuplicates (g : Game)
    (hb : ∀ x, x < 9 → ∀ y, y < 9 → gameGet g x y ≤ 9) :
    solvable g = true ↔ NoDuplicates g := by
  rw [solvable_eq_cells, solvableCells_iff]
  constructor
  · intro hall x₁ y₁ x₂ y₂ hx₁ hy₁ hx₂ hy₂ hne hunit hnz heq
    have hd9 : gameGet g x₁ y₁ ≤ 9 := hb x₁ hx₁ y₁ hy₁
    have hd1 : 1 ≤ gameGet g x₁ y₁ := Nat.one_le_iff_ne_zero.mpr hnz
    have hp : ((x₁, y₁) : Nat × Nat) ∈ cellsRowMajor :=
      (mem_cellsRowMajor x₁ y₁).mpr ⟨hx₁, hy₁⟩
    rcases hall (x₁, y₁) hp with h0 | hc
    · exact hnz h0
    · rw [available_iff _ _ _ _ hd1 hd9] at hc
      obtain ⟨hrow, hcol, hblk⟩ := hc
      rcases hunit with hyy | hxx | ⟨hbx, hby⟩
      · have hx12 : x₂ ≠ x₁ := by
          intro h
          exact hne (by rw [h, hyy])
        have hthis := hrow x₂ hx₂
        rw [gameGet_gameSet_zero g x₁ y₁ x₂ y₁ hx₁ hy₁,
          if_neg (by tauto : ¬(x₂ = x₁ ∧ y₁ = y₁))] at hthis
        exact hthis (by rw [hyy] at heq ⊢; exact heq.symm)
      · have hy12 : y₂ ≠ y₁ := by
          intro h
          exact hne (by rw [hxx, h])
        have hthis := hcol y₂ hy₂
        rw [gameGet_gameSet_zero g x₁ y₁ x₁ y₂ hx₁ hy₁,
          if_neg (by tauto : ¬(x₁ = x₁ ∧ y₂ = y₁))] at hthis
        exact hthis (by rw [hxx] at heq ⊢; exact heq.symm)
      · have hthis := hblk (x₂ % 3) (by omega) (y₂ % 3) (by omega)
        have hxe : x₁ / 3 * 3 + x₂ % 3 = x₂ := by omega
        have hye : y₁ / 3 * 3 + y₂ % 3 = y₂ := by omega
        rw [hxe, hye, gameGet_gameSet_zero g x₁ y₁ x₂ y₂ hx₁ hy₁,
          if_neg (fun hh : x₂ = x₁ ∧ y₂ = y₁ => hne (by rw [hh.1, hh.2]))] at hthis
        exact hthis heq.symm
  · intro hnd p hp
    obtain ⟨x, y⟩ := p
    obtain ⟨hx, hy⟩ := (mem_cellsRowMajor x y).mp hp
    by_cases h0 : gameGet g x y = 0
    · exact Or.inl h0
    · right
      have hd9 : gameGet g x y ≤ 9 := hb x hx y hy
      have hd1 : 1 ≤ gameGet g x y := Nat.one_le_iff_ne_zero.mpr h0
      rw [available_iff _ _ _ _ hd1 hd9]
      refine ⟨?_, ?_, ?_⟩
      · intro x' hx' heq
        rw [gameGet_gameSet_zero g x y x' y hx hy] at heq
        by_cases hpp : x' = x ∧ y = y
        · rw [if_pos hpp] at heq
          exact h0 heq.symm
        · rw [if_neg hpp] at heq
          have hx'x : x' ≠ x := fun h => hpp ⟨h, rfl⟩
          exact hnd x' y x y hx' hy hx hy
            (fun hh => hx'x (congrArg Prod.fst hh)) (Or.inl rfl)
            (by rw [heq]; exact h0) heq
      · intro y' hy' heq
        rw [gameGet_gameSet_zero g x y x y' hx hy] at heq
        by_cases hpp : x = x ∧ y' = y
        · rw [if_pos hpp] at heq
          exact h0 heq.symm
        · rw [if_neg hpp] at heq
          have hy'y : y' ≠ y := fun h => hpp ⟨rfl, h⟩
          exact hnd x y' x y hx hy' hx hy
            (fun hh => hy'y (congrArg Prod.snd hh)) (Or.inr (Or.inl rfl))
            (by rw [heq]; exact h0) heq
      · intro i hi j hj heq
        rw [gameGet_gameSet_zero g x y _ _ hx hy] at heq
        by_cases hpp : x / 3 * 3 + i = x ∧ y / 3 * 3 + j = y
        · rw [if_pos hpp] at heq
          exact h0 heq.symm
        · rw [if_neg hpp] at heq
          exact hnd (x / 3 * 3 + i) (y / 3 * 3 + j) x y (by omega) (by omega) hx hy
            (fun hh => hpp ⟨congrArg Prod.fst hh, congrArg Prod.snd hh⟩)
            (Or.inr (Or.inr ⟨by omega, by omega⟩))
            (by rw [heq]; exact h0) heq

/-- C4 witness: the equivalence applied to the completed Shortz board. -/
theorem solvable_iff_noDuplicates_witness :
    (∀ x, x < 9 → ∀ y, y < 9 → gameGet (digitsToGame shortzSolution) x y ≤ 9) ∧
      (solvable (digitsToGame shortzSolution) = true ↔
        NoDuplicates (digitsToGame shortzSolution)) :=
  ⟨by decide, solvable_iff_noDuplicates _ (by decide)⟩


/-! ### Solve frame lemmas (C10) -/

/-- Setting an in-range index then reading it gives the written value. -/
theorem list_getD_set_self (l : List Nat) (i v : Nat) (h : i < l.length) :
    (l.set i v).getD i 0 = v := by
  induction l generalizing i with
  | nil => cases h
  | cons a l ih =>
    cases i with
    | zero => rfl
    | succ i => exact ih i (by simpa using h)

/-- Reading index j after setting index i ≠ j is unchanged. -/
theorem list_getD_set_ne (l : List Nat) (i j v : Nat) (hij : i ≠ j) :
    (l.set i v).getD j 0 = l.getD j 0 := by
  induction l generalizing i j with
  | nil => cases i <;> rfl
  | cons a l ih =>
    cases i with
    | zero =>
      cases j with
      | zero => exact absurd rfl hij
      | succ j => rfl
    | succ i =>
      cases j with
      | zero => rfl
      | succ j => exact ih i j (fun h => hij (by omega))

/-- Setting at an out-of-range index is a no-op. -/
theorem list_set_of_le (l : List Nat) (i v : Nat) (h : l.length ≤ i) :
    l.set i v = l := by
  induction l generalizing i with
  | nil => rfl
  | cons a l ih =>
    cases i with
    | zero =>
      rw [List.length_cons] at h
      omega
    | succ i =>
      show a :: l.set i v = a :: l
      rw [ih i (by rw [List.length_cons] at h; omega)]

/-- A zero read surviving a non-zero write means the cell read was not
the cell written. -/
theorem list_getD_set_zero (l : List Nat) (i j v : Nat) (hv : 1 ≤ v)
    (h : (l.set i v).getD j 0 = 0) : l.getD j 0 = 0 := by
  by_cases hij : i = j
  · subst hij
    by_cases hlen : i < l.length
    · rw [list_getD_set_self l i v hlen] at h
      omega
    · rwa [list_set_of_le l i v (le_of_not_lt hlen)] at h
  · rwa [list_getD_set_ne l i j v hij] at h

/-- Reading after a full in-range Set. -/
theorem gameGet_gameSet (g : Game) (x y v x' y' : Nat) (hx : x < 9) (hy : y < 9)
    (hv : v ≤ 9) (hlen : 81 ≤ g.length) :
    gameGet (gameSet g x y v) x' y' = if x' = x ∧ y' = y then v else gameGet g x' y' := by
  unfold gameGet gameSet
  rw [if_neg (by omega : ¬(9 ≤ x ∨ 9 ≤ y ∨ 10 ≤ v))]
  by_cases hb : 9 ≤ x' ∨ 9 ≤ y'
  · rw [if_pos hb, if_neg (by omega : ¬(x' = x ∧ y' = y))]
    rw [if_pos hb]
  · rw [if_neg hb]
    by_cases h : x' = x ∧ y' = y
    · rw [if_pos h, h.1, h.2]
      exact list_getD_set_self g (y * 9 + x) v (by omega)
    · rw [if_neg h, if_neg hb]
      exact list_getD_set_ne g (y * 9 + x) (y' * 9 + x') v (by omega)

/-- Applying moves never changes the board length. -/
theorem applyMoves_length (g : Game) (ap : List Move) :
    (applyMoves g ap).length = g.length := by
  induction ap with
  | nil => rfl
  | cons m rest ih =>
    show (gameSet (applyMoves g rest) m.x m.y m.value).length = g.length
    unfold gameSet
    split
    · exact ih
    · rw [List.length_set]
      exact ih

/-- A cell empty after applying good moves was empty in the original
board. -/
theorem gameGet_applyMoves_zero (g : Game) (ap : List Move)
    (hga : GoodApplied g ap) (x y : Nat) :
    gameGet (applyMoves g ap) x y = 0 → gameGet g x y = 0 := by
  induction hga with
  | nil => exact id
  | cons m rest hr hx9 hy9 h1 h9 he ih =>
    intro h
    apply ih
    revert h
    show gameGet (gameSet (applyMoves g rest) m.x m.y m.value) x y = 0 →
      gameGet (applyMoves g rest) x y = 0
    unfold gameGet gameSet
    rw [if_neg (by omega : ¬(9 ≤ m.x ∨ 9 ≤ m.y ∨ 10 ≤ m.value))]
    by_cases hb : 9 ≤ x ∨ 9 ≤ y
    · rw [if_pos hb, if_pos hb]
      exact id
    · rw [if_neg hb, if_neg hb]
      exact fun h => list_getD_set_zero _ _ _ _ h1 h

/-- Frame property of applying good moves: originally non-empty cells
keep their value. -/
theorem gameGet_applyMoves_frame (g : Game) (hlen : g.length = 81)
    (ap : List Move) (hga : GoodApplied g ap) (x y : Nat)
    (hnz : gameGet g x y ≠ 0) :
    gameGet (applyMoves g ap) x y = gameGet g x y := by
  induction hga with
  | nil => rfl
  | cons m rest hr hx9 hy9 h1 h9 he ih =>
    show gameGet (gameSet (applyMoves g rest) m.x m.y m.value) x y = gameGet g x y
    rw [gameGet_gameSet _ _ _ _ _ _ hx9 hy9 h9 (by rw [applyMoves_length]; omega)]
    by_cases hxy : x = m.x ∧ y = m.y
    · exfalso
      have h0 : gameGet g m.x m.y = 0 := gameGet_applyMoves_zero g rest hr m.x m.y he
      exact hnz (by rw [hxy.1, hxy.2]; exact h0)
    · rw [if_neg hxy]
      exact ih

/-- Undoing the most recent applied move restores the previous board. -/
theorem gameSet_applyMoves_undo (g : Game) (a : Move) (rest : List Move)
    (hx : a.x < 9) (hy : a.y < 9) (h9 : a.value ≤ 9)
    (he : gameGet (applyMoves g rest) a.x a.y = 0) :
    gameSet (applyMoves g (a :: rest)) a.x a.y 0 = applyMoves g rest := by
  show gameSet (gameSet (applyMoves g rest) a.x a.y a.value) a.x a.y 0 =
    applyMoves g rest
  unfold gameSet
  rw [if_neg (by omega : ¬(9 ≤ a.x ∨ 9 ≤ a.y ∨ 10 ≤ a.value)),
    if_neg (by omega : ¬(9 ≤ a.x ∨ 9 ≤ a.y ∨ 10 ≤ (0 : Nat))), List.set_set]
  have h0 : (applyMoves g rest).getD (a.y * 9 + a.x) 0 = 0 := by
    have := he
    unfold gameGet at this
    rwa [if_neg (by omega : ¬(9 ≤ a.x ∨ 9 ≤ a.y))] at this
  rw [← h0, list_set_getD_self]

/-- A successful NextOpenPosition returns an in-range empty cell. -/
theorem nextOpenPosition_spec (g : Game) (x y nx ny : Nat)
    (h : nextOpenPosition g x y = some (nx, ny)) :
    nx < 9 ∧ ny < 9 ∧ gameGet g nx ny = 0 := by
  unfold nextOpenPosition at h
  cases hf : ((List.range 81).drop (y * 9 + x + 1)).find?
      (fun i => gameGet g (i % 9) (i / 9) == 0) with
  | none =>
    rw [hf] at h
    cases h
  | some i =>
    rw [hf] at h
    have hp := List.find?_some hf
    have hi : i < 81 :=
      List.mem_range.mp (List.mem_of_mem_drop (List.mem_of_find?_eq_some hf))
    simp only [Option.map_some', Option.some.injEq, Prod.mk.injEq] at h
    obtain ⟨h1, h2⟩ := h
    subst h1
    subst h2
    refine ⟨by omega, by omega, ?_⟩
    simpa using hp

/-- Values yielded by the Choices iterator are digits 1..9. -/
theorem choicesMembers_bounds {cs : Choices} {c : Nat} (h : c ∈ choicesMembers cs) :
    1 ≤ c ∧ c ≤ 9 := by
  unfold choicesMembers at h
  obtain ⟨hmem, hp⟩ := List.mem_filter.mp h
  have := List.mem_range.mp hmem
  simp only [Bool.and_eq_true, decide_eq_true_eq] at hp
  omega

/-- Folding cons over a list reverses it onto the initial stack. -/
theorem foldl_cons_eq_reverse_append {α β : Type} (f : α → β) (l : List α)
    (init : List β) :
    l.foldl (fun s c => f c :: s) init = l.reverse.map f ++ init := by
  induction l generalizing init with
  | nil => rfl
  | cons a l ih =>
    rw [List.foldl_cons, ih, List.reverse_cons, List.map_append,
      List.append_assoc]
    rfl

/-- PushMoves pushes the Undo marker and then the candidate moves, so
the stack gains the reversed candidate batch before the marker. -/
theorem pushMoves_eq (g : Game) (x y : Nat) (s : List Move) :
    pushMoves g x y s =
      ((choicesMembers (availableChoices g x y)).reverse.map
        (fun c => (⟨.move, x, y, c⟩ : Move))) ++ ⟨.undo, 0, 0, 0⟩ :: s :=
  foldl_cons_eq_reverse_append _ _ _

/-- Every move PushMoves creates is a good candidate for its level. -/
theorem pushMoves_batch_good (g : Game) (applied : List Move) (nx ny : Nat)
    (hx : nx < 9) (hy : ny < 9)
    (he : gameGet (applyMoves g applied) nx ny = 0) :
    ∀ m ∈ (choicesMembers (availableChoices (applyMoves g applied) nx ny)).reverse.map
        (fun c => (⟨.move, nx, ny, c⟩ : Move)),
      GoodBatchMove g applied m := by
  intro m hm
  obtain ⟨c, hc, rfl⟩ := List.mem_map.mp hm
  have hcb := choicesMembers_bounds (List.mem_reverse.mp hc)
  exact ⟨rfl, hx, hy, hcb.1, hcb.2, he⟩

/-- The stack invariant entails the applied-move invariant. -/
theorem goodStack_goodApplied {g : Game} {applied stack : List Move}
    (h : GoodStack g applied stack) : GoodApplied g applied := by
  induction h with
  | base ms u hu hms => exact GoodApplied.nil
  | step ms u a applied stack hs hu ha hms ih =>
    exact GoodApplied.cons a applied ih ha.2.1 ha.2.2.1 ha.2.2.2.1 ha.2.2.2.2.1
      ha.2.2.2.2.2


/-- The DFS loop invariant: from any good stack/applied configuration,
a finished run that reports false leaves the board exactly the original,
and any finished run preserves every originally non-empty cell. -/
theorem solveLoop_spec (gO : Game) (hlen : gO.length = 81) :
    ∀ (fuel : Nat) (stack applied : List Move) (b : Bool) (g' : Game),
      GoodStack gO applied stack →
      solveLoop fuel stack applied (applyMoves gO applied) = some (b, g') →
      (b = false → g' = gO) ∧
      ∀ x y, gameGet gO x y ≠ 0 → gameGet g' x y = gameGet gO x y := by
  intro fuel
  induction fuel with
  | zero =>
    intro stack applied b g' _ hrun
    simp [solveLoop] at hrun
  | succ fuel ih =>
    intro stack applied b g' hgs hrun
    cases hgs with
    | base ms u hu hms =>
      cases ms with
      | nil =>
        rw [List.nil_append] at hrun
        simp only [solveLoop, hu, Option.some.injEq, Prod.mk.injEq] at hrun
        obtain ⟨hb, hg⟩ := hrun
        constructor
        · intro _
          rw [← hg]
          rfl
        · intro x y hnz
          rw [← hg]
          rfl
      | cons m ms' =>
        have hm : GoodBatchMove gO [] m := hms m (List.mem_cons_self m ms')
        have hS' : GoodStack gO [] (ms' ++ [u]) :=
          GoodStack.base ms' u hu (fun m' hm' => hms m' (List.mem_cons_of_mem m hm'))
        rw [List.cons_append] at hrun
        simp only [solveLoop, hm.1] at hrun
        have hg2 : gameSet (applyMoves gO []) m.x m.y m.value = applyMoves gO [m] := rfl
        have hga : GoodApplied gO [m] :=
          GoodApplied.cons m [] GoodApplied.nil hm.2.1 hm.2.2.1 hm.2.2.2.1
            hm.2.2.2.2.1 hm.2.2.2.2.2
        rw [hg2] at hrun
        cases hnext : nextOpenPosition (applyMoves gO [m]) m.x m.y with
        | none =>
          simp only [hnext, Option.some.injEq, Prod.mk.injEq] at hrun
          obtain ⟨hb, hg⟩ := hrun
          constructor
          · intro hfalse
            rw [← hb] at hfalse
            cases hfalse
          · intro x y hnz
            rw [← hg]
            exact gameGet_applyMoves_frame gO hlen _ hga x y hnz
        | some p =>
          obtain ⟨nx, ny⟩ := p
          simp only [hnext] at hrun
          obtain ⟨hnx, hny, hne⟩ := nextOpenPosition_spec _ m.x m.y nx ny hnext
          have hstack : GoodStack gO [m]
              (pushMoves (applyMoves gO [m]) nx ny (ms' ++ [u])) := by
            rw [pushMoves_eq]
            exact GoodStack.step _ _ m [] (ms' ++ [u]) hS' rfl hm
              (pushMoves_batch_good gO [m] nx ny hnx hny hne)
          exact ih _ _ b g' hstack hrun
    | step ms u a applied' stack' hs hu ha hms =>
      cases ms with
      | nil =>
        rw [List.nil_append] at hrun
        simp only [solveLoop, hu] at hrun
        rw [gameSet_applyMoves_undo gO a applied' ha.2.1 ha.2.2.1
          ha.2.2.2.2.1 ha.2.2.2.2.2] at hrun
        exact ih stack' applied' b g' hs hrun
      | cons m ms' =>
        have hm : GoodBatchMove gO (a :: applied') m := hms m (List.mem_cons_self m ms')
        have hS' : GoodStack gO (a :: applied') (ms' ++ u :: stack') :=
          GoodStack.step ms' u a applied' stack' hs hu ha
            (fun m' hm' => hms m' (List.mem_cons_of_mem m hm'))
        rw [List.cons_append] at hrun
        simp only [solveLoop, hm.1] at hrun
        have hg2 : gameSet (applyMoves gO (a :: applied')) m.x m.y m.value =
            applyMoves gO (m :: a :: applied') := rfl
        have hga : GoodApplied gO (m :: a :: applied') :=
          GoodApplied.cons m _ (goodStack_goodApplied hS') hm.2.1 hm.2.2.1
            hm.2.2.2.1 hm.2.2.2.2.1 hm.2.2.2.2.2
        rw [hg2] at hrun
        cases hnext : nextOpenPosition (applyMoves gO (m :: a :: applied')) m.x m.y with
        | none =>
          simp only [hnext, Option.some.injEq, Prod.mk.injEq] at hrun
          obtain ⟨hb, hg⟩ := hrun
          constructor
          · intro hfalse
            rw [← hb] at hfalse
            cases hfalse
          · intro x y hnz
            rw [← hg]
            exact gameGet_applyMoves_frame gO hlen _ hga x y hnz
        | some p =>
          obtain ⟨nx, ny⟩ := p
          simp only [hnext] at hrun
          obtain ⟨hnx, hny, hne⟩ := nextOpenPosition_spec _ m.x m.y nx ny hnext
          have hstack : GoodStack gO (m :: a :: applied')
              (pushMoves (applyMoves gO (m :: a :: applied')) nx ny
                (ms' ++ u :: stack')) := by
            rw [pushMoves_eq]
            exact GoodStack.step _ _ m (a :: applied') (ms' ++ u :: stack') hS' rfl hm
              (pushMoves_batch_good gO (m :: a :: applied') nx ny hnx hny hne)
          exact ih _ _ b g' hstack hrun

/-- C10: a finished Solve run never changes a cell that was non-empty in
the input (the solution extends the clues), and a run that returns false
leaves the board exactly equal to the input. -/
theorem solve_frame (g : Game) (fuel : Nat) (b : Bool) (g' : Game)
    (hlen : g.length = 81) (hrun : solve fuel g = some (b, g')) :
    (∀ x y, gameGet g x y ≠ 0 → gameGet g' x y = gameGet g x y) ∧
      (b = false → g' = g) := by
  unfold solve at hrun
  by_cases h00 : gameGet g 0 0 ≠ 0
  · rw [if_pos h00] at hrun
    cases hnext : nextOpenPosition g 0 0 with
    | none =>
      rw [hnext] at hrun
      simp only [Option.some.injEq, Prod.mk.injEq] at hrun
      obtain ⟨hb, hg⟩ := hrun
      constructor
      · intro x y _
        rw [← hg]
      · intro _
        rw [← hg]
    | some p =>
      obtain ⟨px, py⟩ := p
      rw [hnext] at hrun
      obtain ⟨hpx, hpy, hpe⟩ := nextOpenPosition_spec g 0 0 px py hnext
      have hgs : GoodStack g [] (pushMoves g px py []) := by
        rw [pushMoves_eq]
        exact GoodStack.base _ _ rfl (pushMoves_batch_good g [] px py hpx hpy hpe)
      have hres := solveLoop_spec g hlen fuel _ [] b g' hgs hrun
      exact ⟨hres.2, hres.1⟩
  · rw [if_neg h00] at hrun
    push_neg at h00
    have hgs : GoodStack g [] (pushMoves g 0 0 []) := by
      rw [pushMoves_eq]
      exact GoodStack.base _ _ rfl
        (pushMoves_batch_good g [] 0 0 (by omega) (by omega) h00)
    have hres := solveLoop_spec g hlen fuel _ [] b g' hgs hrun
    exact ⟨hres.2, hres.1⟩

/-- C10 witness: the frame theorem on the Shortz solution with cell
(0, 0) blanked; the solver fills the one open cell and every given clue
keeps its value. -/
theorem solve_frame_witness :
    (digitsToGame nearlyFull).length = 81 ∧
      solve 5 (digitsToGame nearlyFull) = some (true, digitsToGame shortzSolution) ∧
      ((∀ x y, gameGet (digitsToGame nearlyFull) x y ≠ 0 →
          gameGet (digitsToGame shortzSolution) x y =
            gameGet (digitsToGame nearlyFull) x y) ∧
        (true = false → digitsToGame shortzSolution = digitsToGame nearlyFull)) :=
  ⟨by decide, by decide,
    solve_frame (digitsToGame nearlyFull) 5 true (digitsToGame shortzSolution)
      (by decide) (by decide)⟩


end SudokuAR
